import Mathlib

/-!
Verification of the core engine of the smart-organizer repository
(file src/organizer.py, class FileOrganizer).

The Python code is shallowly embedded as executable Lean definitions:

* Python strings are modelled as lists of characters (type Str below);
* filesystem paths are modelled as lists of path segments relative to the
  managed directory (the directory handle itself is the empty list);
* the filesystem is a pair of finite lists: the existing regular files and
  the existing directories;
* the persisted history file is modelled by an Option: none when the file
  is absent, some stack when it holds a well-formed stack (robustness of
  the loader against corrupt or non-array content is modelled separately,
  at JSON level, by loadHistoryStack over HistFileState);
* shutil.move, Path.mkdir(parents=True, exist_ok=True), os.rmdir and the
  per-record try/except blocks are modelled by total functions returning
  Except or Option, mirroring which exceptions the source catches.

Definitions keep the names of the Python functions they translate where
Lean allows it.
-/

set_option maxHeartbeats 1000000

/-- Python strings, modelled as lists of characters. -/
abbrev Str := List Char

/-- Literal helper: the character list of a Lean string literal. -/
def strL (s : String) : Str := s.toList

/-- Python str.lower (modelled with Char.toLower, which agrees on ASCII). -/
def lowerStr (s : Str) : Str := s.map Char.toLower

/-- Python str.strip(): remove leading and trailing whitespace. -/
def stripC (s : Str) : Str :=
  ((s.dropWhile Char.isWhitespace).reverse.dropWhile Char.isWhitespace).reverse

/-- Python str.split(sep) for a one-character separator: always returns at
least one (possibly empty) piece, e.g. splitting the empty string yields
one empty piece, exactly as in Python. -/
def splitOnC (c : Char) : Str → List Str
  | [] => [[]]
  | a :: rest =>
    match splitOnC c rest with
    | [] => [[a]]      -- unreachable: splitOnC never returns []
    | h :: t => if a = c then [] :: h :: t else (a :: h) :: t

/-- Whether needle occurs at the start of hay. -/
def begWith : Str → Str → Bool
  | _, [] => true
  | [], _ :: _ => false
  | a :: hay, b :: needle => a = b && begWith hay needle

/-- Python substring containment: needle in hay. -/
def containsSeg : Str → Str → Bool
  | hay, needle =>
    if begWith hay needle then true
    else match hay with
      | [] => false
      | _ :: rest => containsSeg rest needle

/-- Index of the last occurrence of a dot character, if any
(Python str.rfind applied to a dot). -/
def rfindDot : Str → Option Nat
  | [] => none
  | c :: cs =>
    match rfindDot cs with
    | some i => some (i + 1)
    | none => if c = '.' then some 0 else none

/-- pathlib PurePath.suffix: the extension of the file name including its
leading dot, or empty when there is none.  CPython returns name[i:] for
i = name.rfind of a dot when 0 < i < len(name) - 1, else the empty
string. -/
def pySuffixF (name : Str) : Str :=
  match rfindDot name with
  | some i => if 0 < i ∧ i < name.length - 1 then name.drop i else []
  | none => []

/-- Destination folder name of the By Extension branch of organize_files:
extension[1:].lower() if the file has a suffix, else the literal other. -/
def extFolderName (name : Str) : Str :=
  let extension := pySuffixF name
  if extension ≠ [] then lowerStr (extension.drop 1) else strL "other"

/-- Decimal rendering of a natural number (Python str of a nonnegative int). -/
def natStr (n : Nat) : Str := Nat.toDigits 10 n

/-- Python format specifier 02d: zero-pad to width two. -/
def pad2 (n : Nat) : Str := if n < 10 then '0' :: natStr n else natStr n

/-- The fields of a Python datetime that organize_files reads from a file
modification time (datetime.fromtimestamp of st_mtime). -/
structure DT where
  year : Nat
  month : Nat
  day : Nat
  hour : Nat
  minute : Nat
  second : Nat
  deriving Repr, DecidableEq

/-- Nested time layout of organize_files (create_parent_folders = True):
the list of path segments built by the parts-accumulating code. -/
def timeFolderParts (granularity : Str) (m : DT) : List Str :=
  let parts0 :=
    if granularity = strL "Decade" then [natStr (m.year / 10 * 10) ++ strL "s"]
    else [natStr m.year]
  let parts1 :=
    if granularity ∈ [strL "Month", strL "Day", strL "Hour", strL "Minute", strL "Second"]
    then parts0 ++ [pad2 m.month] else parts0
  let parts2 :=
    if granularity ∈ [strL "Day", strL "Hour", strL "Minute", strL "Second"]
    then parts1 ++ [pad2 m.day] else parts1
  let parts3 :=
    if granularity ∈ [strL "Hour", strL "Minute", strL "Second"]
    then parts2 ++ [pad2 m.hour ++ strL "h"] else parts2
  let parts4 :=
    if granularity ∈ [strL "Minute", strL "Second"]
    then parts3 ++ [pad2 m.minute ++ strL "m"] else parts3
  if granularity = strL "Second" then parts4 ++ [pad2 m.second ++ strL "s"] else parts4

/-- Flat time layout of organize_files (create_parent_folders = False):
the single folder name built by the if/elif chain; the empty string when
the granularity is not recognised (flat_name stays empty). -/
def timeFolderFlat (granularity : Str) (m : DT) : Str :=
  let base_name := natStr m.year ++ strL "-" ++ pad2 m.month ++ strL "-" ++ pad2 m.day
  if granularity = strL "Decade" then natStr (m.year / 10 * 10) ++ strL "s"
  else if granularity = strL "Year" then natStr m.year
  else if granularity = strL "Month" then natStr m.year ++ strL "-" ++ pad2 m.month
  else if granularity = strL "Day" then base_name
  else if granularity = strL "Hour" then base_name ++ strL "_" ++ pad2 m.hour ++ strL "h"
  else if granularity = strL "Minute" then
    base_name ++ strL "_" ++ pad2 m.hour ++ strL "h" ++ pad2 m.minute ++ strL "m"
  else if granularity = strL "Second" then
    base_name ++ strL "_" ++ pad2 m.hour ++ strL "h" ++ pad2 m.minute ++ strL "m"
      ++ pad2 m.second ++ strL "s"
  else []

/-- One keyword group turned into its list of keys:
[k.strip().lower() for k in group.split(thecomma) if k.strip()]. -/
def groupKeys (group : Str) : List Str :=
  (splitOnC ',' group).filterMap (fun k =>
    let ks := stripC k
    if ks = [] then none else some (lowerStr ks))

/-- Python dict insertion of key k with value v: an existing key keeps its
position and gets the new value (last write wins), a new key is appended. -/
def insertKW (m : List (Str × Str)) (k v : Str) : List (Str × Str) :=
  if m.any (fun kv => kv.1 = k)
  then m.map (fun kv => if kv.1 = k then (kv.1, v) else kv)
  else m ++ [(k, v)]

/-- The body of the group loop of _build_keyword_map for one
(group, folder) pair. -/
def addGroup (m : List (Str × Str)) (gf : Str × Str) : List (Str × Str) :=
  (groupKeys gf.1).foldl (fun acc k => insertKW acc k gf.2) m

/-- FileOrganizer._build_keyword_map: splits both rule strings on
semicolons, strips each piece, validates, then folds every group of
comma-separated keywords into an insertion-ordered keyword-to-folder map.
A raised ValueError is modelled as Except.error with the message text. -/
def _build_keyword_map (keyword_rules folder_rules : Str) :
    Except Str (List (Str × Str)) :=
  let keyword_groups := (splitOnC ';' keyword_rules).map stripC
  let folder_names := (splitOnC ';' folder_rules).map stripC
  if keyword_groups.length ≠ folder_names.length then
    .error (strL "Rule mismatch: keyword group count and folder count differ.")
  else if keyword_rules = [] ∨ folder_rules = [] then
    .error (strL "Keyword and folder rules cannot be empty.")
  else
    .ok ((keyword_groups.zip folder_names).foldl addGroup [])

/-! ## Filesystem and engine state model -/

/-- A filesystem path relative to the managed directory: the list of path
segments below it.  The managed directory itself is the empty list. -/
abbrev FPath := List Str

/-- The last path component (pathlib item.name / shutil basename). -/
def nameOf (p : FPath) : Str := p.getLastD []

/-- The parent path (pathlib Path.parent, relative to the root). -/
def parentOf (p : FPath) : FPath := p.dropLast

/-- One existing segment is an initial segment of another path: a leadsTo b
holds when the directory a lies on the chain from the root to b
(inclusively). -/
def leadsTo (a b : FPath) : Prop := ∃ t, a ++ t = b

instance (a b : FPath) : Decidable (leadsTo a b) :=
  decidable_of_iff (a <+: b) Iff.rfl

/-- The state of the managed directory tree: the set of existing regular
files and the set of existing directories, each as a duplicate-free list
of paths.  The root directory is the empty path and is always a member of
dirs in well-formed states. -/
structure FS where
  files : List FPath
  dirs : List FPath
  deriving Repr, DecidableEq

/-- Whether a path exists at all (os.path.exists). -/
def pathExists (fs : FS) (p : FPath) : Prop := p ∈ fs.files ∨ p ∈ fs.dirs

instance (fs : FS) (p : FPath) : Decidable (pathExists fs p) := by
  unfold pathExists; infer_instance

/-- Whether directory d has an immediate child entry (any(p.iterdir())). -/
def hasChild (fs : FS) (d : FPath) : Prop :=
  (∃ p ∈ fs.files, p ≠ [] ∧ p.dropLast = d) ∨ (∃ p ∈ fs.dirs, p ≠ [] ∧ p.dropLast = d)

instance (fs : FS) (d : FPath) : Decidable (hasChild fs d) := by
  unfold hasChild; infer_instance

/-- Failure modes of shutil.move that undo_organization distinguishes:
FileNotFoundError gets its own except clause, every other exception falls
into the generic handler. -/
inductive MErr
  | notFound
  | generic
  deriving Repr, DecidableEq

/-- Relocation of every path under src to the corresponding path under
real, used when os.rename moves a whole directory. -/
def relocatePaths (l : List FPath) (src real : FPath) : List FPath :=
  l.map (fun p => if leadsTo src p then real ++ p.drop src.length else p)

/-- The os.rename step of shutil.move (same-filesystem case) plus its
copy fallback: renaming a file onto a free path or an existing file
succeeds and overwrites, renaming a file onto a directory fails, renaming
a directory onto a free path relocates the whole subtree, renaming a
directory onto an existing entry fails (the branch real in dirs is
unreachable from shutilMove, which only calls renameMove with a
non-directory destination), and a missing source raises
FileNotFoundError. -/
def renameMove (fs : FS) (src real : FPath) : Except MErr FS :=
  if src ∈ fs.files then
    if real ∈ fs.dirs then .error .generic
    else .ok { files := real :: fs.files.filter (fun p => p ≠ src ∧ p ≠ real),
               dirs := fs.dirs }
  else if src ∈ fs.dirs then
    if real ∈ fs.files ∨ real ∈ fs.dirs then .error .generic
    else .ok { files := relocatePaths fs.files src real,
               dirs := relocatePaths fs.dirs src real }
  else .error .notFound

/-- shutil.move(src, dst): when dst is an existing directory the source is
moved inside it (after the destination-inside-source check and the
already-exists check, both raising shutil.Error), otherwise the entry is
renamed onto dst. -/
def shutilMove (fs : FS) (src dst : FPath) : Except MErr FS :=
  if dst ∈ fs.dirs then
    if leadsTo src dst ∧ src ≠ dst then .error .generic
    else
      let real := dst ++ [nameOf src]
      if real ∈ fs.files ∨ real ∈ fs.dirs then .error .generic
      else renameMove fs src real
  else renameMove fs src dst

/-- Path.mkdir(parents=True, exist_ok=True) on destination_folder: creates
every missing directory on the chain from the root; fails (with an OSError
other than the suppressed FileExistsError-on-directory) when a regular
file occupies any position on the chain, creating nothing in that case. -/
def mkdirParents (fs : FS) (d : FPath) : Option FS :=
  let chain := (List.range d.length).map (fun i => d.take (i + 1))
  if chain.any (fun q => q ∈ fs.files) then none
  else some { fs with dirs := fs.dirs ++ chain.filter (fun q => q ∉ fs.dirs) }

/-- A batch: the (source, destination) move records of one organize run. -/
abbrev Batch := List (FPath × FPath)

/-- FileOrganizer._move_file: create the destination folder (with parents),
move the file there under its own name, and on success append the record;
any exception is caught and the file is left where the failed step left
it. -/
def _move_file (fs : FS) (item : FPath) (destination_folder : FPath) (batch : Batch) :
    FS × Batch :=
  match mkdirParents fs destination_folder with
  | none => (fs, batch)
  | some fs1 =>
    let destination_path := destination_folder ++ [nameOf item]
    match shutilMove fs1 item destination_path with
    | .ok fs2 => (fs2, batch ++ [(item, destination_path)])
    | .error _ => (fs1, batch)

/-- pathlib parsing of a user-supplied folder name joined under the root:
split on slashes, drop empty and single-dot segments.  (The model covers
relative folder names; absolute names and parent-dot segments are outside
its scope and treated as plain segments.) -/
def pathOfStr (s : Str) : FPath :=
  (splitOnC '/' s).filter (fun seg => seg ≠ [] ∧ seg ≠ ['.'])

/-- First keyword of the map whose text occurs in the lowercased file
name, in map iteration order, with the folder it maps to (the inner
for-loop of the By Keyword branch). -/
def firstMatch : List (Str × Str) → Str → Option Str
  | [], _ => none
  | (key, folder_name) :: rest, nameLower =>
    if containsSeg nameLower key then some folder_name else firstMatch rest nameLower

/-- The relative destination folder organize_files computes for one file
name, by sorting mode: By Keyword takes the first matching rule, By Time
derives the folder from the modification time and layout flag, By
Extension uses the extension folder name; none means the file is skipped
(and an unknown mode matches no branch). -/
def computeDest (sort_mode granularity : Str) (create_parent_folders : Bool)
    (keyword_map : List (Str × Str)) (mt : Str → DT) (name : Str) : Option FPath :=
  if sort_mode = strL "By Keyword" then
    match firstMatch keyword_map (lowerStr name) with
    | some folder_name => some (pathOfStr folder_name)
    | none => none
  else if sort_mode = strL "By Time" then
    let m := mt name
    if create_parent_folders then some (timeFolderParts granularity m)
    else
      let flat_name := timeFolderFlat granularity m
      if flat_name ≠ [] then some [flat_name] else none
  else if sort_mode = strL "By Extension" then
    some [extFolderName name]
  else none

/-- Progress percentage reported by _report_progress: (current / total) * 100
as a floating-point number, modelled exactly in the rationals. -/
def pct (current total : Nat) : ℚ := ((current : ℚ) / (total : ℚ)) * 100

/-- The engine state: the directory tree plus the persisted history file
(none when the file does not exist, some stack when it holds a
well-formed stack of batches). -/
structure OrgState where
  fs : FS
  hist : Option (List Batch)
  deriving Repr, DecidableEq

/-- The stack the engine obtains from _load_history_stack in states whose
history file is absent or well-formed: a missing file loads as the empty
stack. -/
def loadStackSt : Option (List Batch) → List Batch
  | none => []
  | some st => st

/-- The history file name and the config file name that file enumeration
excludes. -/
def histFileName : Str := strL ".organizer_history.json"

/-- The config artifact name excluded from enumeration. -/
def configFileName : Str := strL ".organizer_config.json"

/-- The loop body of the per-file processing loop of organize_files:
compute the destination for the current mode, move when one applies, and
report progress once per file whatever happened. -/
def processOne (sort_mode granularity : Str) (create_parent_folders : Bool)
    (keyword_map : List (Str × Str)) (mt : Str → DT) (total_files : Nat)
    (acc : FS × Batch × List ℚ) (ip : Nat × FPath) : FS × Batch × List ℚ :=
  let (fs, batch, prog) := acc
  let (index, item) := ip
  let (fs1, batch1) :=
    match computeDest sort_mode granularity create_parent_folders keyword_map mt
        (nameOf item) with
    | some dest_folder => _move_file fs item dest_folder batch
    | none => (fs, batch)
  (fs1, batch1, prog ++ [pct (index + 1) total_files])

/-- The file enumeration of organize_files: immediate children of the
root that are regular files and not the engine artifacts, in directory
iteration order. -/
def candFiles (s : OrgState) : List FPath :=
  s.fs.files.filter
    (fun p => decide (p.length = 1 ∧ nameOf p ≠ histFileName ∧ nameOf p ≠ configFileName))

/-- The per-file processing loop of organize_files as a fold over the
enumerated files. -/
def orgFold (s : OrgState) (sort_mode granularity : Str) (create_parent_folders : Bool)
    (keyword_map : List (Str × Str)) (mt : Str → DT) : FS × Batch × List ℚ :=
  (candFiles s).enum.foldl
    (processOne sort_mode granularity create_parent_folders keyword_map mt
      (candFiles s).length)
    (s.fs, ([] : Batch), ([] : List ℚ))

/-- FileOrganizer.organize_files.  Builds the keyword map first in By
Keyword mode (raising, modelled as Except.error, on invalid rules or an
empty compiled map, before any file is read), enumerates the immediate
regular-file children of the root except the engine artifacts, processes
them in order accumulating the batch and progress reports, then appends a
non-empty batch to the loaded history stack and persists it.  Returns the
moved-file count and the emitted progress percentages. -/
def organize_files (s : OrgState) (sort_mode granularity keyword_rules folder_rules : Str)
    (create_parent_folders : Bool) (mt : Str → DT) :
    Except Str (OrgState × Nat × List ℚ) :=
  match ((if sort_mode = strL "By Keyword" then
          match _build_keyword_map keyword_rules folder_rules with
          | .error e => .error e
          | .ok m =>
            if m.isEmpty then .error (strL "No valid keyword rules were provided.")
            else .ok m
         else .ok ([] : List (Str × Str))) : Except Str (List (Str × Str))) with
  | .error e => .error e
  | .ok keyword_map =>
    let total_files := (candFiles s).length
    if total_files = 0 then .ok (s, 0, [])
    else
      let r := orgFold s sort_mode granularity create_parent_folders keyword_map mt
      let hist' := if r.2.1.isEmpty then s.hist
        else some (loadStackSt s.hist ++ [r.2.1])
      .ok (⟨r.1, hist'⟩, r.2.1.length, r.2.2)

/-! ## Undo, folder cleanup and history loading -/

/-- The loop body of the restore loop of undo_organization for one move
record at its position in the reversed batch: an injected environment
failure (env index = true models an exception other than a missing file,
e.g. a permission error) or any exception from shutil.move is logged and
skipped, a successful move back adds the parent folder of the destination
to the cleanup set and bumps the restored count, and progress is reported
once per attempted record. -/
def restoreStep (env : Nat → Bool) (total_files : Nat)
    (acc : FS × Nat × List FPath × List ℚ) (ir : Nat × (FPath × FPath)) :
    FS × Nat × List FPath × List ℚ :=
  let (fs, files_undone, folders_to_check, prog) := acc
  let (index, record) := ir
  let (source_p, dest_p) := record
  let (fs1, undone1, folders1) :=
    if env index then (fs, files_undone, folders_to_check)
    else
      match shutilMove fs dest_p source_p with
      | .ok fs' =>
        (fs', files_undone + 1,
         if parentOf dest_p ∈ folders_to_check then folders_to_check
         else folders_to_check ++ [parentOf dest_p])
      | .error _ => (fs, files_undone, folders_to_check)
  (fs1, undone1, folders1, prog ++ [pct (index + 1) total_files])

/-- The while-loop of the recursive folder cleanup, walking from a folder
up towards the root, with a structural fuel argument (one unit per path
segment plus one suffices, since each iteration moves to the parent):
stop at the root or at a no-longer-existing path; iterating a regular
file raises and the exception handler breaks; a non-empty directory
breaks; an empty directory is removed and the walk moves to its
parent. -/
def walkFuel : Nat → FS → FPath → FS
  | 0, fs, _ => fs
  | fuel + 1, fs, cur =>
    if cur = [] then fs
    else if ¬ pathExists fs cur then fs
    else if cur ∈ fs.files then fs
    else if hasChild fs cur then fs
    else walkFuel fuel { fs with dirs := fs.dirs.erase cur } cur.dropLast

/-- The cleanup while-loop with exactly enough fuel to reach the root. -/
def walkLoop (fs : FS) (cur : FPath) : FS := walkFuel (cur.length + 1) fs cur

/-- One iteration of the outer cleanup loop: walk upward from one
collected folder. -/
def walkUp (fs : FS) (folder : FPath) : FS := walkLoop fs folder

/-- sorted(folders, key=number of path parts, reverse=True): insertion
sort, deepest folders first. -/
def insLenDesc (a : FPath) : List FPath → List FPath
  | [] => [a]
  | b :: bs => if b.length ≤ a.length then a :: insLenDesc b bs else b :: insLenDesc a bs

/-- Sort a folder list by segment count, descending. -/
def sortLenDesc : List FPath → List FPath
  | [] => []
  | a :: as => insLenDesc a (sortLenDesc as)

/-- The restore loop of undo_organization as a fold over the reversed
batch. -/
def undoFold (env : Nat → Bool) (fs : FS) (last_batch : Batch) :
    FS × Nat × List FPath × List ℚ :=
  last_batch.reverse.enum.foldl (restoreStep env last_batch.length)
    (fs, 0, ([] : List FPath), ([] : List ℚ))

/-- The recursive folder cleanup of undo_organization: walk upward from
each collected folder, deepest folders first. -/
def cleanupFold (fs : FS) (folders_to_check : List FPath) : FS :=
  (sortLenDesc folders_to_check).foldl walkUp fs

/-- FileOrganizer.undo_organization.  Loads the stack (empty stack: return
0 untouched); pops the last batch (empty batch: return 0 before any
persistence, leaving the history file as it was); replays the records in
reverse of their append order, skipping missing destinations and any other
per-record failure; removes folders left empty, walking upward from each
collected folder, deepest first; then deletes the history file when the
remaining stack is empty and rewrites it otherwise.  The env argument
injects environment failures into individual record moves (always false
for a run without external interference).  Returns the restored count and
the emitted progress percentages. -/
def undo_organization (env : Nat → Bool) (s : OrgState) : OrgState × Nat × List ℚ :=
  let history_stack := loadStackSt s.hist
  match history_stack.getLast? with
  | none => (s, 0, [])
  | some last_batch =>
    let rest := history_stack.dropLast
    let total_files := last_batch.length
    if total_files = 0 then (s, 0, [])
    else
      let r := undoFold env s.fs last_batch
      let fs2 := cleanupFold r.1 r.2.2.1
      let hist' := if rest.isEmpty then none else some rest
      (⟨fs2, hist'⟩, r.2.1, r.2.2.2)

/-! ## JSON-level model of _load_history_stack -/

/-- Coarse JSON values as far as _load_history_stack inspects them: the
isinstance check only distinguishes a top-level array from everything
else. -/
inductive Jv
  | arr (l : List Jv)
  | obj
  | str (s : Str)
  | num (n : Int)
  | boolean (b : Bool)
  | null

/-- The observable states of the history file for the loader: absent,
unreadable (an OSError while opening or reading, caught by the generic
handler), holding text that is not valid JSON (json.JSONDecodeError), or
holding a parsed JSON value. -/
inductive HistFileState
  | missing
  | unreadable
  | corrupt
  | parsed (j : Jv)

/-- Errors the body of the try block of _load_history_stack can raise. -/
inductive LoadErr
  | decodeErr
  | ioErr
  deriving Repr, DecidableEq

/-- The body of _load_history_stack before exception handling: a missing
file returns the empty stack (checked before the try block), json.load
raises on unreadable or corrupt content, and a parsed value is returned
when it is a list and replaced by the empty list otherwise. -/
def readHistoryRaw : HistFileState → Except LoadErr (List Jv)
  | .missing => .ok []
  | .unreadable => .error .ioErr
  | .corrupt => .error .decodeErr
  | .parsed j =>
    match j with
    | .arr l => .ok l
    | _ => .ok []

/-- FileOrganizer._load_history_stack: every exception of the raw read is
caught (json.JSONDecodeError and the generic handler both return the
empty stack), so the caller always receives a list. -/
def _load_history_stack (st : HistFileState) : List Jv :=
  match readHistoryRaw st with
  | .ok stack => stack
  | .error .decodeErr => []
  | .error .ioErr => []

/-! ## Reference definitions written from the specification text

These are deliberately written from the wording of the specification (not
from the Python code) and are compared with the translated code in the
refinement-style theorems below. -/

/-- Specification wording: decade computed as year minus (year mod 10),
with suffix s. -/
def decadeSpec (y : Nat) : Str := natStr (y - y % 10) ++ strL "s"

/-- Specification wording: the day-level base YYYY-MM-DD with zero-padded
month and day (the year as its decimal digits). -/
def dayBaseSpec (m : DT) : Str :=
  natStr m.year ++ strL "-" ++ pad2 m.month ++ strL "-" ++ pad2 m.day

/-- Specification wording for the flat layout: one folder name per
granularity, with hour, minute and second appended progressively onto the
day-level base. -/
def flatSpec (g : Str) (m : DT) : Str :=
  if g = strL "Decade" then decadeSpec m.year
  else if g = strL "Year" then natStr m.year
  else if g = strL "Month" then natStr m.year ++ strL "-" ++ pad2 m.month
  else if g = strL "Day" then dayBaseSpec m
  else if g = strL "Hour" then dayBaseSpec m ++ strL "_" ++ pad2 m.hour ++ strL "h"
  else if g = strL "Minute" then
    dayBaseSpec m ++ strL "_" ++ pad2 m.hour ++ strL "h" ++ pad2 m.minute ++ strL "m"
  else if g = strL "Second" then
    dayBaseSpec m ++ strL "_" ++ pad2 m.hour ++ strL "h" ++ pad2 m.minute ++ strL "m"
      ++ pad2 m.second ++ strL "s"
  else []

/-- Specification wording for the nested layout: a path of progressively
finer segments, only the decade segment for Decade, otherwise the year
segment followed by zero-padded month, day, then HHh, MMm, SSs as the
granularity deepens. -/
def nestedSpec (g : Str) (m : DT) : List Str :=
  if g = strL "Decade" then [decadeSpec m.year]
  else if g = strL "Year" then [natStr m.year]
  else if g = strL "Month" then [natStr m.year, pad2 m.month]
  else if g = strL "Day" then [natStr m.year, pad2 m.month, pad2 m.day]
  else if g = strL "Hour" then
    [natStr m.year, pad2 m.month, pad2 m.day, pad2 m.hour ++ strL "h"]
  else if g = strL "Minute" then
    [natStr m.year, pad2 m.month, pad2 m.day, pad2 m.hour ++ strL "h",
     pad2 m.minute ++ strL "m"]
  else if g = strL "Second" then
    [natStr m.year, pad2 m.month, pad2 m.day, pad2 m.hour ++ strL "h",
     pad2 m.minute ++ strL "m", pad2 m.second ++ strL "s"]
  else []

/-- One step of the reference replay written from the specification
wording of undo: a record whose destination file no longer exists, or
that hits an injected environment failure, is skipped; otherwise the
destination is moved back to the source (overwriting) and the restored
count is bumped. -/
def replayStep (env : Nat → Bool) (acc : FS × Nat) (ir : Nat × (FPath × FPath)) :
    FS × Nat :=
  if env ir.1 then acc
  else if ir.2.2 ∈ acc.1.files then
    ({ files := ir.2.1 :: acc.1.files.filter (fun p => p ≠ ir.2.2 ∧ p ≠ ir.2.1),
       dirs := acc.1.dirs }, acc.2 + 1)
  else acc

/-- Reference replay written from the specification wording of undo: walk
the batch records in reverse of their append order, skipping failures,
and count the records restored. -/
def replaySpec (fs : FS) (batch : Batch) (env : Nat → Bool) : FS × Nat :=
  batch.reverse.enum.foldl (replayStep env) (fs, 0)

/-- A managed directory in a fresh state: the given file names directly
under the root, no subdirectories, no history file. -/
def freshState (names : List Str) : OrgState :=
  ⟨⟨names.map (fun n => [n]), [[]]⟩, none⟩

/-- The environment oracle of a run without external interference: no
injected failures. -/
def noFault : Nat → Bool := fun _ => false

/-- Whether a root-level file name is a candidate for processing (not one
of the engine artifacts excluded from enumeration). -/
def candName (n : Str) : Bool :=
  decide (n ≠ histFileName ∧ n ≠ configFileName)

/-- The sequence of percentages a loop over total items reports: one call
per item, at (i / total) * 100 for i = 1 .. total. -/
def progList (total : Nat) : List ℚ :=
  (List.range total).map (fun i => pct (i + 1) total)

/-- The keyword map organize_files ends up processing with: the compiled
map in By Keyword mode (empty if compilation failed, a case in which
organize_files errors out before processing) and the empty map in every
other mode. -/
def theKM (sort_mode keyword_rules folder_rules : Str) : List (Str × Str) :=
  if sort_mode = strL "By Keyword" then
    (_build_keyword_map keyword_rules folder_rules).toOption.getD []
  else []

/-- The names among cs that the classifier sends somewhere (a destination
folder is computed for them), in processing order. -/
def movedNames (sort_mode granularity : Str) (cpf : Bool) (km : List (Str × Str))
    (mt : Str → DT) (cs : List Str) : List Str :=
  cs.filter (fun nm => (computeDest sort_mode granularity cpf km mt nm).isSome)

/-- The destination folder computed for a name, defaulting to the root
when none is computed (only used for names of movedNames). -/
def destF (sort_mode granularity : Str) (cpf : Bool) (km : List (Str × Str))
    (mt : Str → DT) (nm : Str) : FPath :=
  (computeDest sort_mode granularity cpf km mt nm).getD []

/-- The processing loop of organize_files over an arbitrary remaining
list of root file names with starting index k (orgFold is the instance
with the full enumeration). -/
def orgRun (sort_mode granularity : Str) (cpf : Bool) (km : List (Str × Str))
    (mt : Str → DT) (total : Nat) (cs : List Str) (k : Nat) (fs : FS) (batch : Batch)
    (pr : List ℚ) : FS × Batch × List ℚ :=
  ((cs.map (fun nm => ([nm] : FPath))).enumFrom k).foldl
    (processOne sort_mode granularity cpf km mt total) (fs, batch, pr)

/-- The restore loop of undo_organization specialised to a batch whose
records move root-level files [nm] to destF nm ++ [nm], as produced by an
organize run on a fresh directory, starting from an arbitrary enumeration
index and accumulator. -/
def undoRun (sort_mode granularity : Str) (cpf : Bool) (km : List (Str × Str))
    (mt : Str → DT) (total : Nat) (P : List Str) (k : Nat) (fs : FS) (n0 : Nat)
    (fl : List FPath) (pr : List ℚ) : FS × Nat × List FPath × List ℚ :=
  ((P.map (fun nm => (([nm] : FPath),
      destF sort_mode granularity cpf km mt nm ++ [nm]))).enumFrom k).foldl
    (restoreStep noFault total) (fs, n0, fl, pr)

/-! ## Helper lemmas -/

theorem rfindDot_eq_none (s : Str) (h : '.' ∉ s) : rfindDot s = none := by
  induction s with
  | nil => rfl
  | cons c cs ih =>
    have hc : c ≠ '.' := fun hc => h (hc ▸ List.mem_cons_self c cs)
    have hcs : '.' ∉ cs := fun hm => h (List.mem_cons_of_mem c hm)
    simp [rfindDot, ih hcs, hc]

theorem rfindDot_append_dot (stem ext : Str) (h : '.' ∉ ext) :
    rfindDot (stem ++ '.' :: ext) = some stem.length := by
  induction stem with
  | nil => simp [rfindDot, rfindDot_eq_none ext h]
  | cons c cs ih => simp [rfindDot, ih]

theorem groupKeys_ne_nil (g : Str) : ∀ k ∈ groupKeys g, k ≠ [] := by
  intro k hk hknil
  subst hknil
  simp only [groupKeys, List.mem_filterMap] at hk
  obtain ⟨x, _, hx⟩ := hk
  by_cases h : stripC x = []
  · rw [if_pos h] at hx
    cases hx
  · rw [if_neg h] at hx
    exact h (List.map_eq_nil_iff.mp (Option.some.inj hx))

theorem insertKW_key_ne (m : List (Str × Str)) (k v : Str)
    (hm : ∀ kv ∈ m, kv.1 ≠ []) (hk : k ≠ []) :
    ∀ kv ∈ insertKW m k v, kv.1 ≠ [] := by
  intro kv hkv
  unfold insertKW at hkv
  by_cases h : m.any (fun kv => kv.1 = k)
  · rw [if_pos h] at hkv
    simp only [List.mem_map] at hkv
    obtain ⟨a, ha, rfl⟩ := hkv
    by_cases h2 : a.1 = k <;> simp [h2, hm a ha, hk]
  · rw [if_neg h] at hkv
    rcases List.mem_append.mp hkv with h' | h'
    · exact hm kv h'
    · rw [List.mem_singleton.mp h']
      exact hk

theorem addGroup_key_ne (m : List (Str × Str)) (gf : Str × Str)
    (hm : ∀ kv ∈ m, kv.1 ≠ []) : ∀ kv ∈ addGroup m gf, kv.1 ≠ [] := by
  unfold addGroup
  suffices h : ∀ (ks : List Str), (∀ k ∈ ks, k ≠ []) →
      ∀ (m0 : List (Str × Str)), (∀ kv ∈ m0, kv.1 ≠ []) →
      ∀ kv ∈ ks.foldl (fun acc k => insertKW acc k gf.2) m0, kv.1 ≠ [] by
    exact h (groupKeys gf.1) (groupKeys_ne_nil gf.1) m hm
  intro ks
  induction ks with
  | nil => intro _ m0 hm0 kv hkv; exact hm0 kv hkv
  | cons k ks ih =>
    intro hks m0 hm0 kv hkv
    simp only [List.foldl_cons] at hkv
    exact ih (fun k' hk' => hks k' (List.mem_cons_of_mem _ hk')) _
      (insertKW_key_ne m0 k gf.2 hm0 (hks k (List.mem_cons_self _ _))) kv hkv

theorem foldl_addGroup_key_ne (l : List (Str × Str)) (m0 : List (Str × Str))
    (hm0 : ∀ kv ∈ m0, kv.1 ≠ []) : ∀ kv ∈ l.foldl addGroup m0, kv.1 ≠ [] := by
  induction l generalizing m0 with
  | nil => exact hm0
  | cons gf l ih =>
    intro kv hkv
    exact ih _ (addGroup_key_ne m0 gf hm0) kv hkv

/-! ## Claim C7: robustness of history loading -/

/-- C7: loading the history stack never raises an error to the caller: a
missing history file yields the empty stack, and a history file that is
unreadable, contains invalid JSON, or has a non-array top level is
treated as the empty stack rather than a failure (the total function
_load_history_stack catches every error of the raw read). -/
theorem claim_C7 :
    _load_history_stack .missing = [] ∧
    _load_history_stack .corrupt = [] ∧
    _load_history_stack .unreadable = [] ∧
    (∀ l, _load_history_stack (.parsed (.arr l)) = l) ∧
    (∀ j : Jv, (∀ l, j ≠ .arr l) → _load_history_stack (.parsed j) = []) := by
  refine ⟨rfl, rfl, rfl, fun l => rfl, fun j h => ?_⟩
  cases j
  case arr l => exact absurd rfl (h l)
  all_goals rfl

/-- Witness for C7 at concrete non-array and array contents. -/
theorem claim_C7_witness :
    _load_history_stack (.parsed .null) = [] ∧
    _load_history_stack (.parsed (.arr [])) = [] :=
  ⟨claim_C7.2.2.2.2 .null (fun _ h => Jv.noConfusion h), claim_C7.2.2.2.1 []⟩

/-! ## Claim C5: extension classification -/

/-- C5: extension classification returns the lowercase extension without
its leading separator, and the literal other when the file name has no
extension; in particular report.TXT maps to txt and README to other. -/
theorem claim_C5 :
    (∀ stem ext : Str, stem ≠ [] → ext ≠ [] → '.' ∉ ext →
      extFolderName (stem ++ '.' :: ext) = lowerStr ext) ∧
    (∀ name : Str, '.' ∉ name → extFolderName name = strL "other") ∧
    extFolderName (strL "report.TXT") = strL "txt" ∧
    extFolderName (strL "README") = strL "other" := by
  refine ⟨?_, ?_, by decide, by decide⟩
  · intro stem ext hs he hd
    have h1 : rfindDot (stem ++ '.' :: ext) = some stem.length :=
      rfindDot_append_dot stem ext hd
    have h0 : 0 < stem.length := List.length_pos.mpr hs
    have h2 : stem.length < (stem ++ '.' :: ext).length - 1 := by
      have hep : 0 < ext.length := List.length_pos.mpr he
      simp only [List.length_append, List.length_cons]
      omega
    have hdrop : (stem ++ '.' :: ext).drop stem.length = '.' :: ext := by
      exact List.drop_left stem ('.' :: ext)
    simp only [extFolderName, pySuffixF, h1, if_pos (And.intro h0 h2), hdrop]
    simp
  · intro name hd
    simp only [extFolderName, pySuffixF, rfindDot_eq_none name hd]
    simp

/-- Witness for C5 at the concrete inputs of the specification examples. -/
theorem claim_C5_witness :
    extFolderName (strL "report" ++ '.' :: strL "TXT") = lowerStr (strL "TXT") ∧
    extFolderName (strL "README") = strL "other" :=
  ⟨claim_C5.1 (strL "report") (strL "TXT") (by decide) (by decide) (by decide),
   claim_C5.2.1 (strL "README") (by decide)⟩

/-! ## Claim C3: keyword rule validation -/

/-- Counterexample to C3 as stated: the folder rule string consisting of a
single space is empty after trimming, yet _build_keyword_map succeeds (the
emptiness check in the source tests the raw strings, not the trimmed
ones), compiling the keyword a to the empty folder name. -/
theorem claim_C3_counterexample :
    stripC (strL " ") = [] ∧
    _build_keyword_map (strL "a") (strL " ") = .ok [(strL "a", [])] := by
  refine ⟨by decide, rfl⟩

/-- C3 amended: keyword rule compilation fails exactly when the number of
semicolon-separated keyword groups differs from the number of folder
names, or one of the raw (untrimmed) rule strings is empty; in Keyword
mode this failure, and the rejection of an empty compiled map, surface as
the error result of organize_files, which therefore performs no file
enumeration or move (an error outcome of the embedding carries no state). -/
theorem claim_C3_amended :
    (∀ keyword_rules folder_rules : Str,
      (∃ e, _build_keyword_map keyword_rules folder_rules = .error e) ↔
        ((splitOnC ';' keyword_rules).length ≠ (splitOnC ';' folder_rules).length ∨
         keyword_rules = [] ∨ folder_rules = [])) ∧
    (∀ (s : OrgState) (granularity keyword_rules folder_rules : Str)
        (cpf : Bool) (mt : Str → DT) (e : Str),
      _build_keyword_map keyword_rules folder_rules = .error e →
      organize_files s (strL "By Keyword") granularity keyword_rules folder_rules cpf mt =
        .error e) ∧
    (∀ (s : OrgState) (granularity keyword_rules folder_rules : Str)
        (cpf : Bool) (mt : Str → DT),
      _build_keyword_map keyword_rules folder_rules = .ok [] →
      organize_files s (strL "By Keyword") granularity keyword_rules folder_rules cpf mt =
        .error (strL "No valid keyword rules were provided.")) := by
  refine ⟨?_, ?_, ?_⟩
  · intro kw fr
    simp only [_build_keyword_map, List.length_map]
    split_ifs with h1 h2
    · exact ⟨fun _ => Or.inl h1, fun _ => ⟨_, rfl⟩⟩
    · exact ⟨fun _ => Or.inr h2, fun _ => ⟨_, rfl⟩⟩
    · constructor
      · rintro ⟨e, he⟩
        exact he.elim
      · intro h
        rcases h with h | h
        · exact absurd h h1
        · exact absurd h h2
  · intro s g kw fr cpf mt e h
    unfold organize_files
    rw [if_pos rfl, h]
  · intro s g kw fr cpf mt h
    unfold organize_files
    rw [if_pos rfl, h]
    rfl

/-- Witness for C3: a concrete mismatched pair fails, and in Keyword mode
a concrete empty rule pair makes organize_files fail on a directory that
does contain a file. -/
theorem claim_C3_witness :
    (∃ e, _build_keyword_map (strL "a;b") (strL "X") = .error e) ∧
    organize_files (freshState [strL "f.txt"]) (strL "By Keyword") (strL "Year")
        [] [] false (fun _ => ⟨2024, 1, 1, 0, 0, 0⟩) =
      .error (strL "Keyword and folder rules cannot be empty.") :=
  ⟨(claim_C3_amended.1 (strL "a;b") (strL "X")).mpr (by decide),
   claim_C3_amended.2.1 (freshState [strL "f.txt"]) (strL "Year") [] [] false
     (fun _ => ⟨2024, 1, 1, 0, 0, 0⟩) _ rfl⟩

/-! ## Claim C10: no empty keyword keys -/

/-- C10: keyword rule compilation discards keywords that are empty after
trimming, so a successfully compiled rule table never contains the empty
string as a key; in particular the rule string a,,b with one folder X
compiles to exactly the two keys a and b. -/
theorem claim_C10 :
    (∀ (keyword_rules folder_rules : Str) (m : List (Str × Str)),
      _build_keyword_map keyword_rules folder_rules = .ok m → ∀ kv ∈ m, kv.1 ≠ []) ∧
    _build_keyword_map (strL "a,,b") (strL "X") =
      .ok [(strL "a", strL "X"), (strL "b", strL "X")] := by
  constructor
  · intro kw fr m h
    unfold _build_keyword_map at h
    by_cases h1 : ((splitOnC ';' kw).map stripC).length ≠ ((splitOnC ';' fr).map stripC).length
    · rw [if_pos h1] at h
      exact absurd h (by simp)
    · rw [if_neg h1] at h
      by_cases h2 : kw = [] ∨ fr = []
      · rw [if_pos h2] at h
        exact absurd h (by simp)
      · rw [if_neg h2] at h
        exact Except.ok.inj h ▸ foldl_addGroup_key_ne _ [] (fun kv hkv => nomatch hkv)
  · rfl

/-- Witness for C10: the compiled table of the stray-comma rule string has
no empty key. -/
theorem claim_C10_witness :
    ∀ kv ∈ [(strL "a", strL "X"), (strL "b", strL "X")], kv.1 ≠ [] :=
  claim_C10.1 (strL "a,,b") (strL "X") _ rfl

/-! ## Claim C4: time classification -/

/-- Counterexample to C4 as stated: for a modification time in the year
999 the nested layout at Year granularity yields the segment 999, which
is not a four-digit year as the claim asserts (the source renders the
year unpadded). -/
theorem claim_C4_counterexample :
    timeFolderParts (strL "Year") ⟨999, 3, 15, 0, 0, 0⟩ = [strL "999"] ∧
    (strL "999").length ≠ 4 := by
  constructor
  · decide
  · decide

/-- C4 amended: for every modification time and every recognised
granularity, the flat layout equals the specification formula (decade as
year minus year mod 10 with suffix s, the year as its unpadded decimal
digits, zero-padded month, day, and progressively appended _HHh, MMm, SSs)
and the nested layout equals the corresponding progressively finer
segment list; the decade arithmetic of the code, year divided by ten times
ten, coincides with the specification formula. -/
theorem claim_C4_amended (g : Str) (m : DT)
    (hg : g ∈ [strL "Decade", strL "Year", strL "Month", strL "Day", strL "Hour",
               strL "Minute", strL "Second"]) :
    timeFolderFlat g m = flatSpec g m ∧
    timeFolderParts g m = nestedSpec g m ∧
    m.year / 10 * 10 = m.year - m.year % 10 := by
  have hdec : m.year / 10 * 10 = m.year - m.year % 10 := by omega
  fin_cases hg
  · refine ⟨?_, ?_, hdec⟩
    · show natStr (m.year / 10 * 10) ++ strL "s" = flatSpec (strL "Decade") m
      rw [hdec]
      rfl
    · show [natStr (m.year / 10 * 10) ++ strL "s"] = nestedSpec (strL "Decade") m
      rw [hdec]
      rfl
  · exact ⟨rfl, rfl, hdec⟩
  · exact ⟨rfl, rfl, hdec⟩
  · exact ⟨rfl, rfl, hdec⟩
  · exact ⟨rfl, rfl, hdec⟩
  · exact ⟨rfl, rfl, hdec⟩
  · exact ⟨rfl, rfl, hdec⟩

/-- Witness for C4 at the specification example: March 2024, flat layout,
Month granularity gives the folder 2024-03, and the nested Day layout
gives the segments 2024, 03, 15. -/
theorem claim_C4_witness :
    (timeFolderFlat (strL "Month") ⟨2024, 3, 15, 10, 30, 0⟩ =
        flatSpec (strL "Month") ⟨2024, 3, 15, 10, 30, 0⟩ ∧
      timeFolderParts (strL "Month") ⟨2024, 3, 15, 10, 30, 0⟩ =
        nestedSpec (strL "Month") ⟨2024, 3, 15, 10, 30, 0⟩ ∧
      (2024 : Nat) / 10 * 10 = 2024 - 2024 % 10) ∧
    flatSpec (strL "Month") ⟨2024, 3, 15, 10, 30, 0⟩ = strL "2024-03" ∧
    nestedSpec (strL "Day") ⟨2024, 3, 15, 10, 30, 0⟩ =
      [strL "2024", strL "03", strL "15"] ∧
    decadeSpec 2025 = strL "2020s" :=
  ⟨claim_C4_amended (strL "Month") ⟨2024, 3, 15, 10, 30, 0⟩ (by decide),
   by decide, by decide, by decide⟩

/-! ## Shape lemmas for organize_files and undo_organization -/

theorem organize_files_ok_shape (s : OrgState)
    (sort_mode granularity keyword_rules folder_rules : Str) (cpf : Bool) (mt : Str → DT)
    (s' : OrgState) (n : Nat) (prog : List ℚ)
    (hok : organize_files s sort_mode granularity keyword_rules folder_rules cpf mt =
      .ok (s', n, prog)) :
    (candFiles s = [] ∧ s' = s ∧ n = 0 ∧ prog = []) ∨
    (candFiles s ≠ [] ∧
      s'.fs = (orgFold s sort_mode granularity cpf
        (theKM sort_mode keyword_rules folder_rules) mt).1 ∧
      n = (orgFold s sort_mode granularity cpf
        (theKM sort_mode keyword_rules folder_rules) mt).2.1.length ∧
      prog = (orgFold s sort_mode granularity cpf
        (theKM sort_mode keyword_rules folder_rules) mt).2.2 ∧
      s'.hist = (if (orgFold s sort_mode granularity cpf
          (theKM sort_mode keyword_rules folder_rules) mt).2.1.isEmpty then s.hist
        else some (loadStackSt s.hist ++ [(orgFold s sort_mode granularity cpf
          (theKM sort_mode keyword_rules folder_rules) mt).2.1]))) := by
  unfold organize_files at hok
  split at hok
  · exact Except.noConfusion hok
  · rename_i km hkm
    have hkmval : km = theKM sort_mode keyword_rules folder_rules := by
      unfold theKM
      by_cases hm : sort_mode = strL "By Keyword"
      · rw [if_pos hm] at hkm ⊢
        cases hb : _build_keyword_map keyword_rules folder_rules with
        | error e =>
          rw [hb] at hkm
          exact absurd hkm (by simp)
        | ok m =>
          rw [hb] at hkm
          dsimp only at hkm
          by_cases he : m.isEmpty
          · rw [if_pos he] at hkm
            exact absurd hkm (by simp)
          · rw [if_neg he] at hkm
            rw [← Except.ok.inj hkm]
            rfl
      · rw [if_neg hm] at hkm ⊢
        exact (Except.ok.inj hkm).symm
    subst hkmval
    simp only [] at hok
    split at hok
    · rename_i hzero
      have h := Except.ok.inj hok
      rw [Prod.ext_iff, Prod.ext_iff] at h
      exact Or.inl ⟨List.length_eq_zero.mp hzero, h.1.symm, h.2.1.symm, h.2.2.symm⟩
    · rename_i hzero
      have h := Except.ok.inj hok
      rw [Prod.ext_iff, Prod.ext_iff] at h
      refine Or.inr ⟨?_, ?_, h.2.1.symm, h.2.2.symm, ?_⟩
      · intro hnil
        exact hzero (by rw [hnil]; rfl)
      · exact (congrArg OrgState.fs h.1).symm
      · exact (congrArg OrgState.hist h.1).symm

theorem undo_empty_stack (env : Nat → Bool) (s : OrgState)
    (h : loadStackSt s.hist = []) : undo_organization env s = (s, 0, []) := by
  unfold undo_organization
  rw [h]
  rfl

theorem undo_empty_batch (env : Nat → Bool) (s : OrgState)
    (h : (loadStackSt s.hist).getLast? = some ([] : Batch)) :
    undo_organization env s = (s, 0, []) := by
  unfold undo_organization
  dsimp only
  rw [h]
  rfl

theorem undo_main (env : Nat → Bool) (s : OrgState) (b : Batch)
    (h : (loadStackSt s.hist).getLast? = some b) (hb : b ≠ []) :
    undo_organization env s =
      (⟨cleanupFold (undoFold env s.fs b).1 (undoFold env s.fs b).2.2.1,
        if (loadStackSt s.hist).dropLast.isEmpty then none
        else some ((loadStackSt s.hist).dropLast)⟩,
       (undoFold env s.fs b).2.1, (undoFold env s.fs b).2.2.2) := by
  unfold undo_organization
  dsimp only
  rw [h]
  dsimp only
  rw [if_neg (fun hlen => hb (List.length_eq_zero.mp hlen))]

/-! ## Claim C2: history stack depth -/

/-- Counterexample to C2 as stated: with a persisted stack holding exactly
one empty batch, the stack is non-empty, yet undo returns 0 and leaves
the persisted stack unchanged, so its depth does not decrease by one. -/
theorem claim_C2_counterexample :
    loadStackSt (some [([] : Batch)]) ≠ [] ∧
    undo_organization noFault ⟨⟨[], [[]]⟩, some [([] : Batch)]⟩ =
      (⟨⟨[], [[]]⟩, some [([] : Batch)]⟩, 0, []) :=
  ⟨by decide, rfl⟩

/-- C2 amended: the persisted stack gains exactly one non-empty batch per
organize call that moves at least one file; an undo call on a non-empty
stack whose top batch is non-empty removes exactly that batch (when the
top batch is empty the persisted stack is left unchanged and 0 is
returned, see C9); undo on an empty stack is a no-op returning 0; and the
backing file is deleted (hist becomes none) when the stack becomes empty
after an undo of a non-empty batch. -/
theorem claim_C2_amended :
    (∀ (s : OrgState) (mode gran kw fr : Str) (cpf : Bool) (mt : Str → DT)
        (s' : OrgState) (n : Nat) (prog : List ℚ),
      organize_files s mode gran kw fr cpf mt = .ok (s', n, prog) → 1 ≤ n →
      ∃ b : Batch, b ≠ [] ∧ b.length = n ∧
        loadStackSt s'.hist = loadStackSt s.hist ++ [b]) ∧
    (∀ (env : Nat → Bool) (s : OrgState) (b : Batch),
      (loadStackSt s.hist).getLast? = some b → b ≠ [] →
      loadStackSt (undo_organization env s).1.hist = (loadStackSt s.hist).dropLast) ∧
    (∀ (env : Nat → Bool) (s : OrgState),
      loadStackSt s.hist = [] → undo_organization env s = (s, 0, [])) ∧
    (∀ (env : Nat → Bool) (s : OrgState) (b : Batch),
      (loadStackSt s.hist).getLast? = some b → b ≠ [] →
      (loadStackSt s.hist).dropLast = [] →
      (undo_organization env s).1.hist = none) := by
  refine ⟨?_, ?_, undo_empty_stack, ?_⟩
  · intro s mode gran kw fr cpf mt s' n prog hok hn
    rcases organize_files_ok_shape s mode gran kw fr cpf mt s' n prog hok with
      ⟨_, _, hn0, _⟩ | ⟨_, _, hlen, _, hhist⟩
    · omega
    · set b := (orgFold s mode gran cpf (theKM mode kw fr) mt).2.1 with hb
      have hbne : b ≠ [] := by
        intro hnil
        rw [hnil] at hlen
        simp at hlen
        omega
      refine ⟨b, hbne, hlen.symm, ?_⟩
      rw [hhist, if_neg (by simpa [List.isEmpty_iff] using hbne)]
      rfl
  · intro env s b h hb
    rw [undo_main env s b h hb]
    by_cases hrest : (loadStackSt s.hist).dropLast.isEmpty
    · rw [if_pos hrest]
      simp only [loadStackSt]
      exact (List.isEmpty_iff.mp hrest).symm
    · rw [if_neg hrest]
      rfl
  · intro env s b h hb hrest
    rw [undo_main env s b h hb]
    rw [if_pos (by simp [hrest])]

/-- Witness for C2 at a concrete one-file directory: organize By
Extension moves one file and pushes one batch; the resulting stack has a
non-empty top batch, and undoing a one-batch stack deletes the backing
file. -/
theorem claim_C2_witness :
    (∃ b : Batch, b ≠ [] ∧ b.length = 1 ∧
      loadStackSt (⟨⟨[[strL "txt", strL "a.txt"]], [[], [strL "txt"]]⟩,
        some [[([strL "a.txt"], [strL "txt", strL "a.txt"])]]⟩ : OrgState).hist =
      loadStackSt (freshState [strL "a.txt"]).hist ++ [b]) ∧
    undo_organization noFault ⟨⟨[], [[]]⟩, none⟩ = (⟨⟨[], [[]]⟩, none⟩, 0, []) ∧
    (undo_organization noFault ⟨⟨[[strL "txt", strL "a.txt"]], [[], [strL "txt"]]⟩,
      some [[([strL "a.txt"], [strL "txt", strL "a.txt"])]]⟩).1.hist = none :=
  ⟨claim_C2_amended.1 (freshState [strL "a.txt"]) (strL "By Extension") (strL "Year")
      [] [] false (fun _ => ⟨2024, 1, 1, 0, 0, 0⟩) _ 1 [pct 1 1] rfl (by omega),
   claim_C2_amended.2.2.1 noFault ⟨⟨[], [[]]⟩, none⟩ rfl,
   claim_C2_amended.2.2.2 noFault _ [([strL "a.txt"], [strL "txt", strL "a.txt"])]
     rfl (by decide) rfl⟩

/-! ## Claim C9: undo of an empty popped batch -/

/-- C9: when the last batch of a non-empty persisted stack is empty,
undo_organization returns 0 before the persistence step: the whole state,
including the history component, is unchanged, so the empty batch is not
removed from the persisted stack and no progress is reported. -/
theorem claim_C9 (env : Nat → Bool) (s : OrgState)
    (h : (loadStackSt s.hist).getLast? = some ([] : Batch)) :
    undo_organization env s = (s, 0, []) :=
  undo_empty_batch env s h

/-- Witness for C9: a concrete two-batch stack ending in an empty batch
is left exactly as it was. -/
theorem claim_C9_witness :
    undo_organization noFault
      ⟨⟨[[strL "y", strL "x"]], [[], [strL "y"]]⟩,
        some [[([strL "x"], [strL "y", strL "x"])], []]⟩ =
      (⟨⟨[[strL "y", strL "x"]], [[], [strL "y"]]⟩,
        some [[([strL "x"], [strL "y", strL "x"])], []]⟩, 0, []) :=
  claim_C9 noFault _ rfl

/-! ## Claim C6: replay semantics of undo -/

theorem mem_enumFrom_snd {α : Type _} :
    ∀ (l : List α) (n : Nat) (ir : Nat × α), ir ∈ l.enumFrom n → ir.2 ∈ l := by
  intro l
  induction l with
  | nil => intro n ir h; cases h
  | cons a t ih =>
    intro n ir h
    rcases List.mem_cons.mp h with h | h
    · rw [h]
      exact List.mem_cons_self a t
    · exact List.mem_cons_of_mem a (ih (n + 1) ir h)

theorem walkFuel_files : ∀ (k : Nat) (cur : FPath) (fs : FS),
    (walkFuel k fs cur).files = fs.files := by
  intro k
  induction k with
  | zero => intro cur fs; rfl
  | succ k ih =>
    intro cur fs
    unfold walkFuel
    split_ifs
    any_goals rfl
    exact ih cur.dropLast _

theorem walkLoop_files (cur : FPath) (fs : FS) : (walkLoop fs cur).files = fs.files :=
  walkFuel_files (cur.length + 1) cur fs

theorem cleanupFold_files (fs : FS) (folders : List FPath) :
    (cleanupFold fs folders).files = fs.files := by
  unfold cleanupFold
  generalize sortLenDesc folders = l
  induction l generalizing fs with
  | nil => rfl
  | cons a t ih =>
    simp only [List.foldl_cons]
    rw [ih (walkUp fs a)]
    exact walkLoop_files a fs

theorem restore_eq_replay (env : Nat → Bool) (total : Nat) :
    ∀ (l : List (Nat × (FPath × FPath))) (fs : FS) (n0 : Nat) (fl : List FPath)
      (pr : List ℚ),
    (∀ ir ∈ l, ir.2.1 ∉ fs.dirs ∧ ir.2.2 ∉ fs.dirs) →
    (l.foldl (restoreStep env total) (fs, n0, fl, pr)).1 =
        (l.foldl (replayStep env) (fs, n0)).1 ∧
    (l.foldl (restoreStep env total) (fs, n0, fl, pr)).2.1 =
        (l.foldl (replayStep env) (fs, n0)).2 ∧
    (l.foldl (restoreStep env total) (fs, n0, fl, pr)).1.dirs = fs.dirs := by
  intro l
  induction l with
  | nil => intro fs n0 fl pr _; exact ⟨rfl, rfl, rfl⟩
  | cons ir t ih =>
    intro fs n0 fl pr h
    obtain ⟨h1, h2⟩ := h ir (List.mem_cons_self _ _)
    have hstep :
        (restoreStep env total (fs, n0, fl, pr) ir).1 = (replayStep env (fs, n0) ir).1 ∧
        (restoreStep env total (fs, n0, fl, pr) ir).2.1 = (replayStep env (fs, n0) ir).2 ∧
        (restoreStep env total (fs, n0, fl, pr) ir).1.dirs = fs.dirs := by
      obtain ⟨i, rec⟩ := ir
      obtain ⟨sp, dp⟩ := rec
      simp only at h1 h2
      by_cases he : env i
      · refine ⟨?_, ?_, ?_⟩ <;> simp [restoreStep, replayStep, he]
      · by_cases hdf : dp ∈ fs.files
        · refine ⟨?_, ?_, ?_⟩ <;>
            simp [restoreStep, replayStep, he, shutilMove, renameMove, h1, h2, hdf]
        · by_cases hdd : dp ∈ fs.dirs
          · exact absurd hdd h2
          · refine ⟨?_, ?_, ?_⟩ <;>
              simp [restoreStep, replayStep, he, shutilMove, renameMove, h1, h2, hdf, hdd]
    have hd' : ∀ jr ∈ t, jr.2.1 ∉ (restoreStep env total (fs, n0, fl, pr) ir).1.dirs ∧
        jr.2.2 ∉ (restoreStep env total (fs, n0, fl, pr) ir).1.dirs := by
      intro jr hjr
      rw [hstep.2.2]
      exact h jr (List.mem_cons_of_mem _ hjr)
    have hrec := ih (restoreStep env total (fs, n0, fl, pr) ir).1
      (restoreStep env total (fs, n0, fl, pr) ir).2.1
      (restoreStep env total (fs, n0, fl, pr) ir).2.2.1
      (restoreStep env total (fs, n0, fl, pr) ir).2.2.2 hd'
    simp only [List.foldl_cons]
    have hYX : replayStep env (fs, n0) ir =
        ((restoreStep env total (fs, n0, fl, pr) ir).1,
         (restoreStep env total (fs, n0, fl, pr) ir).2.1) :=
      Prod.ext_iff.mpr ⟨hstep.1.symm, hstep.2.1.symm⟩
    rw [hYX]
    exact ⟨hrec.1, hrec.2.1, hrec.2.2.trans hstep.2.2⟩

/-- Counterexample to C6 as stated: a state reachable by a single By
Extension organize run on files txt and a.txt.  The popped batch's second
replayed record asks shutil.move to put the file back at the source name
txt, but a directory txt (created by the organize for a.txt) still exists
at that moment, so shutil.move's into-directory branch drops the file at
txt/txt instead of at its source — yet files_undone is still incremented
and undo returns 2.  The returned value therefore does not equal the
number of records whose destination was moved back to its source. -/
theorem claim_C6_counterexample :
    undo_organization noFault
        ⟨⟨[[strL "txt", strL "a.txt"], [strL "other", strL "txt"]],
          [[], [strL "other"], [strL "txt"]]⟩,
         some [[([strL "txt"], [strL "other", strL "txt"]),
                ([strL "a.txt"], [strL "txt", strL "a.txt"])]]⟩ =
      (⟨⟨[[strL "txt", strL "txt"], [strL "a.txt"]], [[], [strL "txt"]]⟩, none⟩, 2,
       [pct 1 2, pct 2 2]) ∧
    [strL "txt"] ∉
      (⟨[[strL "txt", strL "txt"], [strL "a.txt"]], [[], [strL "txt"]]⟩ : FS).files ∧
    [strL "txt", strL "txt"] ∈
      (⟨[[strL "txt", strL "txt"], [strL "a.txt"]], [[], [strL "txt"]]⟩ : FS).files := by
  refine ⟨rfl, by decide, by decide⟩

/-- C6 amended: on a non-empty popped batch, undo walks the records in
reverse of their original append order, treats a missing destination or
any other per-record failure (injected through env) as a non-fatal skip,
and never aborts; provided additionally that no record endpoint is
occupied by a directory at replay time, each still-existing destination
is moved back onto its source and the value returned equals the number
of records successfully restored, matching the reference replay written
from the specification (the folder cleanup afterwards never touches
regular files).  Without that proviso the count can include a record
that shutil.move dropped inside a same-named directory instead of at its
source, see the counterexample. -/
theorem claim_C6_amended (env : Nat → Bool) (s : OrgState) (b : Batch)
    (h : (loadStackSt s.hist).getLast? = some b) (hb : b ≠ [])
    (hd : ∀ rec ∈ b, rec.1 ∉ s.fs.dirs ∧ rec.2 ∉ s.fs.dirs) :
    (undo_organization env s).2.1 = (replaySpec s.fs b env).2 ∧
    (undo_organization env s).1.fs.files = (replaySpec s.fs b env).1.files := by
  have hmain := restore_eq_replay env b.length b.reverse.enum s.fs 0 [] [] (by
    intro ir hir
    exact hd ir.2 (List.mem_reverse.mp (mem_enumFrom_snd _ _ _ hir)))
  rw [undo_main env s b h hb]
  constructor
  · exact hmain.2.1
  · calc (cleanupFold (undoFold env s.fs b).1 (undoFold env s.fs b).2.2.1).files
        = (undoFold env s.fs b).1.files := cleanupFold_files _ _
      _ = (replaySpec s.fs b env).1.files := congrArg FS.files hmain.1

/-- Witness for C6 amended at a concrete three-record batch: the third
record's destination is already missing, the second hits an injected
environment failure, only the first is restored, and the returned count
is 1. -/
theorem claim_C6_witness :
    ((undo_organization (fun i => i == 1)
        ⟨⟨[[strL "k", strL "King.txt"], [strL "k", strL "q.txt"]], [[], [strL "k"]]⟩,
          some [[([strL "King.txt"], [strL "k", strL "King.txt"]),
                 ([strL "q.txt"], [strL "k", strL "q.txt"]),
                 ([strL "gone.txt"], [strL "k", strL "gone.txt"])]]⟩).2.1 =
      (replaySpec ⟨[[strL "k", strL "King.txt"], [strL "k", strL "q.txt"]], [[], [strL "k"]]⟩
        [([strL "King.txt"], [strL "k", strL "King.txt"]),
         ([strL "q.txt"], [strL "k", strL "q.txt"]),
         ([strL "gone.txt"], [strL "k", strL "gone.txt"])] (fun i => i == 1)).2) ∧
    (replaySpec ⟨[[strL "k", strL "King.txt"], [strL "k", strL "q.txt"]], [[], [strL "k"]]⟩
        [([strL "King.txt"], [strL "k", strL "King.txt"]),
         ([strL "q.txt"], [strL "k", strL "q.txt"]),
         ([strL "gone.txt"], [strL "k", strL "gone.txt"])] (fun i => i == 1)).2 = 1 :=
  ⟨(claim_C6_amended (fun i => i == 1)
      ⟨⟨[[strL "k", strL "King.txt"], [strL "k", strL "q.txt"]], [[], [strL "k"]]⟩,
        some [[([strL "King.txt"], [strL "k", strL "King.txt"]),
               ([strL "q.txt"], [strL "k", strL "q.txt"]),
               ([strL "gone.txt"], [strL "k", strL "gone.txt"])]]⟩
      [([strL "King.txt"], [strL "k", strL "King.txt"]),
       ([strL "q.txt"], [strL "k", strL "q.txt"]),
       ([strL "gone.txt"], [strL "k", strL "gone.txt"])]
      rfl (by decide) (by decide)).1, by decide⟩

/-! ## Claim C8: progress reporting -/

theorem processOne_prog_comp (mode gran : Str) (cpf : Bool) (km : List (Str × Str))
    (mt : Str → DT) (total : Nat) (fs : FS) (batch : Batch) (pr : List ℚ)
    (ip : Nat × FPath) :
    (processOne mode gran cpf km mt total (fs, batch, pr) ip).2.2 =
      pr ++ [pct (ip.1 + 1) total] := rfl

theorem foldl_processOne_prog (mode gran : Str) (cpf : Bool) (km : List (Str × Str))
    (mt : Str → DT) (total : Nat) :
    ∀ (l : List (Nat × FPath)) (fs : FS) (batch : Batch) (pr : List ℚ),
    (l.foldl (processOne mode gran cpf km mt total) (fs, batch, pr)).2.2 =
      pr ++ l.map (fun ip => pct (ip.1 + 1) total) := by
  intro l
  induction l with
  | nil => intro fs batch pr; simp
  | cons ip t ih =>
    intro fs batch pr
    simp only [List.foldl_cons, List.map_cons]
    calc (t.foldl (processOne mode gran cpf km mt total)
            (processOne mode gran cpf km mt total (fs, batch, pr) ip)).2.2
        = (processOne mode gran cpf km mt total (fs, batch, pr) ip).2.2 ++
            t.map (fun ip => pct (ip.1 + 1) total) :=
          ih (processOne mode gran cpf km mt total (fs, batch, pr) ip).1
            (processOne mode gran cpf km mt total (fs, batch, pr) ip).2.1
            (processOne mode gran cpf km mt total (fs, batch, pr) ip).2.2
      _ = pr ++ (pct (ip.1 + 1) total :: t.map (fun ip => pct (ip.1 + 1) total)) := by
          rw [processOne_prog_comp]
          simp

theorem restoreStep_prog_comp (env : Nat → Bool) (total : Nat) (fs : FS) (n : Nat)
    (fl : List FPath) (pr : List ℚ) (ir : Nat × (FPath × FPath)) :
    (restoreStep env total (fs, n, fl, pr) ir).2.2.2 = pr ++ [pct (ir.1 + 1) total] := rfl

theorem foldl_restoreStep_prog (env : Nat → Bool) (total : Nat) :
    ∀ (l : List (Nat × (FPath × FPath))) (fs : FS) (n : Nat) (fl : List FPath)
      (pr : List ℚ),
    (l.foldl (restoreStep env total) (fs, n, fl, pr)).2.2.2 =
      pr ++ l.map (fun ir => pct (ir.1 + 1) total) := by
  intro l
  induction l with
  | nil => intro fs n fl pr; simp
  | cons ir t ih =>
    intro fs n fl pr
    simp only [List.foldl_cons, List.map_cons]
    calc (t.foldl (restoreStep env total) (restoreStep env total (fs, n, fl, pr) ir)).2.2.2
        = (restoreStep env total (fs, n, fl, pr) ir).2.2.2 ++
            t.map (fun ir => pct (ir.1 + 1) total) :=
          ih (restoreStep env total (fs, n, fl, pr) ir).1
            (restoreStep env total (fs, n, fl, pr) ir).2.1
            (restoreStep env total (fs, n, fl, pr) ir).2.2.1
            (restoreStep env total (fs, n, fl, pr) ir).2.2.2
      _ = pr ++ (pct (ir.1 + 1) total :: t.map (fun ir => pct (ir.1 + 1) total)) := by
          rw [restoreStep_prog_comp]
          simp

theorem enum_map_pct {α : Type _} (l : List α) (total : Nat) :
    l.enum.map (fun ip : Nat × α => pct (ip.1 + 1) total) =
      (List.range l.length).map (fun i => pct (i + 1) total) := by
  have h : (fun ip : Nat × α => pct (ip.1 + 1) total) =
      (fun i : Nat => pct (i + 1) total) ∘ Prod.fst := rfl
  rw [h, ← List.map_map, List.enum_map_fst]

theorem pct_bounds (i total : Nat) (h1 : 1 ≤ i) (h2 : i ≤ total) :
    0 ≤ pct i total ∧ pct i total ≤ 100 := by
  unfold pct
  constructor
  · positivity
  · have ht : (0 : ℚ) < total := by
      have : (1 : ℕ) ≤ total := le_trans h1 h2
      exact_mod_cast Nat.lt_of_lt_of_le Nat.zero_lt_one this
    rw [div_mul_eq_mul_div, div_le_iff₀ ht]
    have hle : (i : ℚ) ≤ (total : ℚ) := by exact_mod_cast h2
    nlinarith

theorem pct_mono (i j total : Nat) (h : i < j) (ht : 0 < total) :
    pct i total < pct j total := by
  unfold pct
  have ht' : (0 : ℚ) < total := by exact_mod_cast ht
  have hij : (i : ℚ) < j := by exact_mod_cast h
  have h2 : (i : ℚ) / total < (j : ℚ) / total := div_lt_div_of_pos_right hij ht'
  nlinarith

theorem progList_mem_bounds (total : Nat) : ∀ q ∈ progList total, 0 ≤ q ∧ q ≤ 100 := by
  intro q hq
  simp only [progList, List.mem_map, List.mem_range] at hq
  obtain ⟨i, hi, rfl⟩ := hq
  exact pct_bounds (i + 1) total (by omega) (by omega)

theorem progList_sorted (total : Nat) : (progList total).Pairwise (· < ·) := by
  rcases Nat.eq_zero_or_pos total with h | h
  · subst h
    simp [progList]
  · exact List.Pairwise.map _ (fun a b hab => pct_mono (a + 1) (b + 1) total (by omega) h)
      (List.pairwise_lt_range total)

theorem progList_length (total : Nat) : (progList total).length = total := by
  simp [progList]

theorem orgFold_prog (s : OrgState) (mode gran : Str) (cpf : Bool)
    (km : List (Str × Str)) (mt : Str → DT) :
    (orgFold s mode gran cpf km mt).2.2 = progList (candFiles s).length := by
  unfold orgFold progList
  rw [foldl_processOne_prog, enum_map_pct]
  simp

theorem undoFold_prog (env : Nat → Bool) (fs : FS) (b : Batch) :
    (undoFold env fs b).2.2.2 = progList b.length := by
  unfold undoFold progList
  rw [foldl_restoreStep_prog, enum_map_pct]
  simp

/-- C8: the progress callback receives a percentage in the interval from 0
to 100, exactly once per enumerated file during organize (success, skip
or failure alike) and exactly once per attempted record during undo, the
reported percentages are strictly increasing within one call, and no
report is made when the file or record count is zero.  (Percentages are
modelled exactly in the rationals; callback invocations are modelled as
the list of reported values.) -/
theorem claim_C8 :
    (∀ (s : OrgState) (mode gran kw fr : Str) (cpf : Bool) (mt : Str → DT)
        (s' : OrgState) (n : Nat) (prog : List ℚ),
      organize_files s mode gran kw fr cpf mt = .ok (s', n, prog) →
        prog = progList (candFiles s).length ∧
        prog.length = (candFiles s).length ∧
        (∀ q ∈ prog, 0 ≤ q ∧ q ≤ 100) ∧
        prog.Pairwise (· < ·) ∧
        (candFiles s = [] → prog = [])) ∧
    (∀ (env : Nat → Bool) (s : OrgState) (b : Batch),
      (loadStackSt s.hist).getLast? = some b → b ≠ [] →
        (undo_organization env s).2.2 = progList b.length ∧
        (undo_organization env s).2.2.length = b.length ∧
        (∀ q ∈ (undo_organization env s).2.2, 0 ≤ q ∧ q ≤ 100) ∧
        (undo_organization env s).2.2.Pairwise (· < ·)) ∧
    (∀ (env : Nat → Bool) (s : OrgState),
      loadStackSt s.hist = [] → (undo_organization env s).2.2 = []) ∧
    (∀ (env : Nat → Bool) (s : OrgState),
      (loadStackSt s.hist).getLast? = some ([] : Batch) →
      (undo_organization env s).2.2 = []) := by
  refine ⟨?_, ?_, ?_, ?_⟩
  · intro s mode gran kw fr cpf mt s' n prog hok
    have hshape := organize_files_ok_shape s mode gran kw fr cpf mt s' n prog hok
    have hprog : prog = progList (candFiles s).length := by
      rcases hshape with ⟨hnil, _, _, hpr⟩ | ⟨_, _, _, hpr, _⟩
      · rw [hpr, hnil]
        rfl
      · rw [hpr, orgFold_prog]
    refine ⟨hprog, ?_, ?_, ?_, ?_⟩
    · rw [hprog, progList_length]
    · rw [hprog]
      exact progList_mem_bounds _
    · rw [hprog]
      exact progList_sorted _
    · intro hnil
      rw [hprog, hnil]
      rfl
  · intro env s b h hb
    have hu : (undo_organization env s).2.2 = progList b.length := by
      rw [undo_main env s b h hb]
      exact undoFold_prog env s.fs b
    refine ⟨hu, ?_, ?_, ?_⟩
    · rw [hu, progList_length]
    · rw [hu]
      exact progList_mem_bounds _
    · rw [hu]
      exact progList_sorted _
  · intro env s h
    rw [undo_empty_stack env s h]
  · intro env s h
    rw [undo_empty_batch env s h]

/-- Witness for C8 at a concrete two-file organize run and a concrete
one-record undo run. -/
theorem claim_C8_witness :
    ([pct 1 2, pct 2 2] = progList (candFiles (freshState [strL "a.txt", strL "b.jpg"])).length ∧
      ([pct 1 2, pct 2 2] : List ℚ).length =
        (candFiles (freshState [strL "a.txt", strL "b.jpg"])).length ∧
      (∀ q ∈ ([pct 1 2, pct 2 2] : List ℚ), 0 ≤ q ∧ q ≤ 100) ∧
      ([pct 1 2, pct 2 2] : List ℚ).Pairwise (· < ·) ∧
      (candFiles (freshState [strL "a.txt", strL "b.jpg"]) = [] →
        ([pct 1 2, pct 2 2] : List ℚ) = [])) ∧
    (undo_organization noFault ⟨⟨[], [[]]⟩, none⟩).2.2 = [] :=
  ⟨claim_C8.1 (freshState [strL "a.txt", strL "b.jpg"]) (strL "By Extension") (strL "Year")
      [] [] false (fun _ => ⟨2024, 1, 1, 0, 0, 0⟩) _ 2 [pct 1 2, pct 2 2] rfl,
   claim_C8.2.2.1 noFault ⟨⟨[], [[]]⟩, none⟩ rfl⟩

/-! ## Claim C1: undo after organize -/

/-- Counterexample to C1 as stated: a fresh directory holding the two
files txt (no extension) and a.txt, organized By Extension and undone
immediately with no manual changes in between.  Organize moves txt into
other and a.txt into a freshly created folder txt; undo restores a.txt,
but restoring the file txt hits an existing directory of the same name,
so shutil.move drops it inside that directory at txt/txt.  The undo even
reports 2 restored records, yet the root file set is not restored: the
file txt is no longer directly under the root. -/
theorem claim_C1_counterexample :
    organize_files (freshState [strL "txt", strL "a.txt"]) (strL "By Extension")
        (strL "Year") [] [] false (fun _ => ⟨2024, 1, 1, 0, 0, 0⟩) =
      .ok (⟨⟨[[strL "txt", strL "a.txt"], [strL "other", strL "txt"]],
             [[], [strL "other"], [strL "txt"]]⟩,
            some [[([strL "txt"], [strL "other", strL "txt"]),
                   ([strL "a.txt"], [strL "txt", strL "a.txt"])]]⟩, 2,
           [pct 1 2, pct 2 2]) ∧
    undo_organization noFault
        ⟨⟨[[strL "txt", strL "a.txt"], [strL "other", strL "txt"]],
          [[], [strL "other"], [strL "txt"]]⟩,
         some [[([strL "txt"], [strL "other", strL "txt"]),
                ([strL "a.txt"], [strL "txt", strL "a.txt"])]]⟩ =
      (⟨⟨[[strL "txt", strL "txt"], [strL "a.txt"]], [[], [strL "txt"]]⟩, none⟩, 2,
       [pct 1 2, pct 2 2]) ∧
    [strL "txt"] ∈ (freshState [strL "txt", strL "a.txt"]).fs.files ∧
    [strL "txt"] ∉
      (⟨[[strL "txt", strL "txt"], [strL "a.txt"]], [[], [strL "txt"]]⟩ : FS).files := by
  refine ⟨rfl, rfl, by decide, by decide⟩

theorem leadsTo_refl (a : FPath) : leadsTo a a := ⟨[], by simp⟩

theorem leadsTo_trans {a b c : FPath} (h1 : leadsTo a b) (h2 : leadsTo b c) :
    leadsTo a c := by
  obtain ⟨t1, rfl⟩ := h1
  obtain ⟨t2, rfl⟩ := h2
  exact ⟨t1 ++ t2, by simp⟩

theorem leadsTo_length {a b : FPath} (h : leadsTo a b) : a.length ≤ b.length := by
  obtain ⟨t, rfl⟩ := h
  simp

theorem leadsTo_take (b : FPath) (i : Nat) : leadsTo (b.take i) b :=
  ⟨b.drop i, List.take_append_drop i b⟩

theorem leadsTo_eq_take {a b : FPath} (h : leadsTo a b) : a = b.take a.length := by
  obtain ⟨t, rfl⟩ := h
  simp

theorem leadsTo_singleton {x : Str} {F : FPath} (h : leadsTo [x] F) :
    F.head? = some x := by
  obtain ⟨t, rfl⟩ := h
  rfl

theorem leadsTo_nil_right {a : FPath} (h : leadsTo a []) : a = [] := by
  obtain ⟨t, ht⟩ := h
  exact List.append_eq_nil.mp ht |>.1

theorem append_singleton_inj {F G : FPath} {a b : Str} (h : F ++ [a] = G ++ [b]) :
    F = G ∧ a = b := by
  have hlen : F.length = G.length := by
    have := congrArg List.length h
    simp at this
    exact this
  have := List.append_inj h hlen
  exact ⟨this.1, by simpa using this.2⟩

theorem processOne_none (mode gran : Str) (cpf : Bool) (km : List (Str × Str))
    (mt : Str → DT) (total : Nat) (fs : FS) (batch : Batch) (pr : List ℚ)
    (i : Nat) (item : FPath)
    (h : computeDest mode gran cpf km mt (nameOf item) = none) :
    processOne mode gran cpf km mt total (fs, batch, pr) (i, item) =
      (fs, batch, pr ++ [pct (i + 1) total]) := by
  simp only [processOne, h]

theorem processOne_some (mode gran : Str) (cpf : Bool) (km : List (Str × Str))
    (mt : Str → DT) (total : Nat) (fs : FS) (batch : Batch) (pr : List ℚ)
    (i : Nat) (item : FPath) (F : FPath)
    (h : computeDest mode gran cpf km mt (nameOf item) = some F) :
    processOne mode gran cpf km mt total (fs, batch, pr) (i, item) =
      ((_move_file fs item F batch).1, (_move_file fs item F batch).2,
       pr ++ [pct (i + 1) total]) := by
  simp only [processOne, h]

theorem mkdirParents_ok (fs : FS) (d : FPath)
    (h : ∀ i < d.length, d.take (i + 1) ∉ fs.files) :
    ∃ fs1, mkdirParents fs d = some fs1 ∧
      (∀ q, q ∈ fs1.dirs ↔ q ∈ fs.dirs ∨ ∃ i < d.length, q = d.take (i + 1)) ∧
      fs1.files = fs.files ∧
      (fs.dirs.Nodup → fs1.dirs.Nodup) := by
  unfold mkdirParents
  rw [if_neg ?_]
  · refine ⟨_, rfl, ?_, rfl, ?_⟩
    · intro q
      simp only [List.mem_append, List.mem_filter, List.mem_map, List.mem_range,
        decide_eq_true_eq]
      constructor
      · rintro (hq | ⟨⟨i, hi, rfl⟩, _⟩)
        · exact Or.inl hq
        · exact Or.inr ⟨i, hi, rfl⟩
      · rintro (hq | ⟨i, hi, rfl⟩)
        · exact Or.inl hq
        · by_cases hqd : d.take (i + 1) ∈ fs.dirs
          · exact Or.inl hqd
          · exact Or.inr ⟨⟨i, hi, rfl⟩, hqd⟩
    · intro hnd
      refine List.Nodup.append hnd ?_ ?_
      · refine List.Nodup.filter _ ?_
        refine List.Nodup.map_on ?_ (List.nodup_range d.length)
        intro i hi j hj hij
        have : (d.take (i + 1)).length = (d.take (j + 1)).length := by rw [hij]
        simp only [List.length_take, List.mem_range] at this hi hj
        omega
      · intro q hq hq2
        simp only [List.mem_filter, decide_eq_true_eq] at hq2
        exact hq2.2 hq
  · intro hc
    obtain ⟨q, hq1, hq2⟩ := List.any_eq_true.mp hc
    obtain ⟨i, hi2, rfl⟩ := List.mem_map.mp hq1
    exact h i (List.mem_range.mp hi2) (of_decide_eq_true hq2)

theorem _move_file_ok (fs : FS) (nm : Str) (F : FPath) (batch : Batch)
    (hmk : ∀ i < F.length, F.take (i + 1) ∉ fs.files)
    (hdst : F ++ [nm] ∉ fs.dirs)
    (hsrc : [nm] ∈ fs.files) :
    (∀ p, p ∈ (_move_file fs [nm] F batch).1.files ↔
      p = F ++ [nm] ∨ (p ∈ fs.files ∧ p ≠ [nm] ∧ p ≠ F ++ [nm])) ∧
    (∀ d, d ∈ (_move_file fs [nm] F batch).1.dirs ↔
      d ∈ fs.dirs ∨ ∃ i < F.length, d = F.take (i + 1)) ∧
    (_move_file fs [nm] F batch).2 = batch ++ [([nm], F ++ [nm])] ∧
    (fs.files.Nodup → (_move_file fs [nm] F batch).1.files.Nodup) ∧
    (fs.dirs.Nodup → (_move_file fs [nm] F batch).1.dirs.Nodup) := by
  obtain ⟨fs1, hfs1, hdirs1, hfiles1, hnd1⟩ := mkdirParents_ok fs F hmk
  have hdst1 : F ++ [nm] ∉ fs1.dirs := by
    rw [hdirs1]
    rintro (hq | ⟨i, hi, hq⟩)
    · exact hdst hq
    · have : (F ++ [nm]).length = (F.take (i + 1)).length := by rw [hq]
      simp only [List.length_append, List.length_take, List.length_cons,
        List.length_nil] at this
      omega
  have hname : nameOf [nm] = nm := rfl
  have hmove : shutilMove fs1 [nm] (F ++ [nm]) =
      .ok { files := (F ++ [nm]) :: fs1.files.filter
              (fun p => decide (p ≠ [nm] ∧ p ≠ F ++ [nm])),
            dirs := fs1.dirs } := by
    unfold shutilMove renameMove
    rw [if_neg hdst1, if_pos (hfiles1 ▸ hsrc), if_neg hdst1]
  unfold _move_file
  rw [hfs1]
  dsimp only
  rw [show F ++ [nameOf [nm]] = F ++ [nm] from rfl, hmove]
  dsimp only
  refine ⟨?_, ?_, rfl, ?_, ?_⟩
  · intro p
    simp only [List.mem_cons, List.mem_filter, hfiles1, decide_eq_true_eq]
  · intro d
    exact hdirs1 d
  · intro hnd
    refine List.Nodup.cons ?_ (List.Nodup.filter _ (hfiles1 ▸ hnd))
    intro hmem
    simp only [List.mem_filter, decide_eq_true_eq] at hmem
    exact hmem.2.2 rfl
  · exact hnd1

theorem movedNames_cons_some (mode gran : Str) (cpf : Bool) (km : List (Str × Str))
    (mt : Str → DT) (nm : Str) (cs : List Str) (F : FPath)
    (hD : computeDest mode gran cpf km mt nm = some F) :
    movedNames mode gran cpf km mt (nm :: cs) = nm :: movedNames mode gran cpf km mt cs := by
  simp [movedNames, List.filter_cons, hD]

theorem movedNames_cons_none (mode gran : Str) (cpf : Bool) (km : List (Str × Str))
    (mt : Str → DT) (nm : Str) (cs : List Str)
    (hD : computeDest mode gran cpf km mt nm = none) :
    movedNames mode gran cpf km mt (nm :: cs) = movedNames mode gran cpf km mt cs := by
  simp [movedNames, List.filter_cons, hD]

theorem movedNames_sub (mode gran : Str) (cpf : Bool) (km : List (Str × Str))
    (mt : Str → DT) (cs : List Str) (nm : Str)
    (h : nm ∈ movedNames mode gran cpf km mt cs) : nm ∈ cs :=
  (List.mem_filter.mp h).1

theorem movedNames_dest (mode gran : Str) (cpf : Bool) (km : List (Str × Str))
    (mt : Str → DT) (cs : List Str) (nm : Str)
    (h : nm ∈ movedNames mode gran cpf km mt cs) :
    computeDest mode gran cpf km mt nm = some (destF mode gran cpf km mt nm) := by
  have h2 := (List.mem_filter.mp h).2
  rw [Option.isSome_iff_exists] at h2
  obtain ⟨F, hF⟩ := h2
  simp [destF, hF]

theorem destF_some (mode gran : Str) (cpf : Bool) (km : List (Str × Str))
    (mt : Str → DT) (nm : Str) (F : FPath)
    (hD : computeDest mode gran cpf km mt nm = some F) :
    destF mode gran cpf km mt nm = F := by
  simp [destF, hD]

theorem orgRun_cons (mode gran : Str) (cpf : Bool) (km : List (Str × Str))
    (mt : Str → DT) (total : Nat) (nm : Str) (cs : List Str) (k : Nat) (fs : FS)
    (batch : Batch) (pr : List ℚ) :
    orgRun mode gran cpf km mt total (nm :: cs) k fs batch pr =
      orgRun mode gran cpf km mt total cs (k + 1)
        (processOne mode gran cpf km mt total (fs, batch, pr) (k, [nm])).1
        (processOne mode gran cpf km mt total (fs, batch, pr) (k, [nm])).2.1
        (processOne mode gran cpf km mt total (fs, batch, pr) (k, [nm])).2.2 := rfl

theorem orgRun_inv (names : List Str) (mode gran : Str) (cpf : Bool)
    (km : List (Str × Str)) (mt : Str → DT)
    (hcoll : ∀ n ∈ names, ∀ n' ∈ names, ∀ F,
      computeDest mode gran cpf km mt n' = some F → F.head? ≠ some n)
    (hlen : ∀ n ∈ names, ∀ n' ∈ names, ∀ F F',
      computeDest mode gran cpf km mt n = some F →
      computeDest mode gran cpf km mt n' = some F' → F.length = F'.length) :
    ∀ (cs : List Str) (k total : Nat) (fs : FS) (batch : Batch) (pr : List ℚ),
    cs.Nodup →
    (∀ nm ∈ cs, nm ∈ names) →
    (∀ nm ∈ cs, [nm] ∈ fs.files) →
    (∀ x : Str, [x] ∈ fs.files → x ∈ names) →
    (∀ p ∈ fs.files, 2 ≤ p.length →
      ∃ nm' ∈ names, ∃ F', computeDest mode gran cpf km mt nm' = some F' ∧
        p = F' ++ [nm']) →
    (∀ d ∈ fs.dirs, d = [] ∨ ∃ nm' ∈ names, ∃ F',
      computeDest mode gran cpf km mt nm' = some F' ∧ d ≠ [] ∧ leadsTo d F') →
    fs.files.Nodup → fs.dirs.Nodup →
    ((∀ p, p ∈ (orgRun mode gran cpf km mt total cs k fs batch pr).1.files ↔
      ((p ∈ fs.files ∧ ∀ nm ∈ movedNames mode gran cpf km mt cs, p ≠ [nm]) ∨
       (∃ nm ∈ movedNames mode gran cpf km mt cs,
         p = destF mode gran cpf km mt nm ++ [nm]))) ∧
    (∀ d, d ∈ (orgRun mode gran cpf km mt total cs k fs batch pr).1.dirs ↔
      (d ∈ fs.dirs ∨ ∃ nm ∈ movedNames mode gran cpf km mt cs,
        d ≠ [] ∧ leadsTo d (destF mode gran cpf km mt nm))) ∧
    (orgRun mode gran cpf km mt total cs k fs batch pr).2.1 =
      batch ++ (movedNames mode gran cpf km mt cs).map
        (fun nm => (([nm] : FPath), destF mode gran cpf km mt nm ++ [nm])) ∧
    (orgRun mode gran cpf km mt total cs k fs batch pr).1.files.Nodup ∧
    (orgRun mode gran cpf km mt total cs k fs batch pr).1.dirs.Nodup) := by
  intro cs
  induction cs with
  | nil =>
    intro k total fs batch pr _ _ _ _ _ _ hndf hndd
    refine ⟨?_, ?_, by simp [orgRun, movedNames], hndf, hndd⟩
    · intro p
      simp [movedNames, orgRun]
    · intro d
      simp [movedNames, orgRun]
  | cons nm cs' ih =>
    intro k total fs batch pr hnd hcsn hroots hrootnames hlong hdirsh hndf hndd
    have hnmnames : nm ∈ names := hcsn nm (List.mem_cons_self _ _)
    have hnd' : cs'.Nodup := hnd.of_cons
    have hnmcs' : nm ∉ cs' := by
      intro hmem
      exact (List.nodup_cons.mp hnd).1 hmem
    cases hD : computeDest mode gran cpf km mt nm with
    | none =>
      rw [orgRun_cons,
        processOne_none mode gran cpf km mt total fs batch pr k [nm] hD]
      rw [movedNames_cons_none mode gran cpf km mt nm cs' hD]
      exact ih (k + 1) total fs batch (pr ++ [pct (k + 1) total]) hnd'
        (fun x hx => hcsn x (List.mem_cons_of_mem _ hx))
        (fun x hx => hroots x (List.mem_cons_of_mem _ hx))
        hrootnames hlong hdirsh hndf hndd
    | some F =>
      have hmk : ∀ i < F.length, F.take (i + 1) ∉ fs.files := by
        intro i hi hmem
        rcases Nat.lt_or_ge (i + 1) 2 with h2 | h2
        · have hi0 : i = 0 := by omega
          subst hi0
          have hlen1 : (F.take 1).length = 1 := by
            rw [List.length_take]
            omega
          obtain ⟨x, hx⟩ := List.length_eq_one.mp hlen1
          rw [hx] at hmem
          have hxnames : x ∈ names := hrootnames x hmem
          have hhead : F.head? = some x := by
            have := leadsTo_take F 1
            rw [hx] at this
            exact leadsTo_singleton this
          exact hcoll x hxnames nm hnmnames F hD hhead
        · have hq : (F.take (i + 1)).length = i + 1 := by
            rw [List.length_take]
            omega
          obtain ⟨nm', hnm', F', hF', hp⟩ := hlong _ hmem (by omega)
          have hlenF : F'.length = F.length := hlen nm' hnm' nm hnmnames F' F hF' hD
          have : (F.take (i + 1)).length = F'.length + 1 := by
            rw [hp]
            simp
          omega
      have hdst : F ++ [nm] ∉ fs.dirs := by
        intro hmem
        rcases hdirsh _ hmem with hnil | ⟨nm', hnm', F', hF', _, hlead⟩
        · exact absurd hnil (by simp)
        · have h1 := leadsTo_length hlead
          have h2 : F'.length = F.length := hlen nm' hnm' nm hnmnames F' F hF' hD
          simp only [List.length_append, List.length_cons, List.length_nil] at h1
          omega
      have hsrc : [nm] ∈ fs.files := hroots nm (List.mem_cons_self _ _)
      obtain ⟨hfiff, hdiff, hbatch, hndf2, hndd2⟩ := _move_file_ok fs nm F batch hmk hdst hsrc
      have hdF : destF mode gran cpf km mt nm = F := destF_some mode gran cpf km mt nm F hD
      rw [orgRun_cons,
        processOne_some mode gran cpf km mt total fs batch pr k [nm] F hD]
      rw [movedNames_cons_some mode gran cpf km mt nm cs' F hD]
      -- X is the state after moving nm
      have hroots' : ∀ x ∈ cs', [x] ∈ (_move_file fs [nm] F batch).1.files := by
        intro x hx
        rw [hfiff]
        refine Or.inr ⟨hroots x (List.mem_cons_of_mem _ hx), ?_, ?_⟩
        · intro hEq
          have : x = nm := by
            have := List.cons.injEq x [] nm [] ▸ hEq
            exact (List.cons.inj hEq).1
          exact hnmcs' (this ▸ hx)
        · intro hEq
          obtain ⟨hF0, hxeq⟩ := append_singleton_inj (by simpa using hEq.symm : F ++ [nm] = [] ++ [x])
          exact hnmcs' (hxeq ▸ hx)
      have hrootnames' : ∀ x : Str, [x] ∈ (_move_file fs [nm] F batch).1.files → x ∈ names := by
        intro x hx
        rw [hfiff] at hx
        rcases hx with hx | ⟨hx, _, _⟩
        · obtain ⟨hF0, hxeq⟩ := append_singleton_inj (by simpa using hx.symm : F ++ [nm] = [] ++ [x])
          exact hxeq ▸ hnmnames
        · exact hrootnames x hx
      have hlong' : ∀ p ∈ (_move_file fs [nm] F batch).1.files, 2 ≤ p.length →
          ∃ nm' ∈ names, ∃ F', computeDest mode gran cpf km mt nm' = some F' ∧
            p = F' ++ [nm'] := by
        intro p hp hp2
        rw [hfiff] at hp
        rcases hp with rfl | ⟨hp, _, _⟩
        · exact ⟨nm, hnmnames, F, hD, rfl⟩
        · exact hlong p hp hp2
      have hdirsh' : ∀ d ∈ (_move_file fs [nm] F batch).1.dirs, d = [] ∨
          ∃ nm' ∈ names, ∃ F', computeDest mode gran cpf km mt nm' = some F' ∧
            d ≠ [] ∧ leadsTo d F' := by
        intro d hd
        rw [hdiff] at hd
        rcases hd with hd | ⟨i, hi, rfl⟩
        · exact hdirsh d hd
        · refine Or.inr ⟨nm, hnmnames, F, hD, ?_, leadsTo_take F (i + 1)⟩
          intro hnil
          have : (F.take (i + 1)).length = 0 := by rw [hnil]; rfl
          rw [List.length_take] at this
          omega
      have hIH := ih (k + 1) total (_move_file fs [nm] F batch).1
        (_move_file fs [nm] F batch).2 (pr ++ [pct (k + 1) total]) hnd'
        (fun x hx => hcsn x (List.mem_cons_of_mem _ hx))
        hroots' hrootnames' hlong' hdirsh' (hndf2 hndf) (hndd2 hndd)
      obtain ⟨ihf, ihd, ihb, ihnf, ihnd⟩ := hIH
      have hnotmem : ∀ x ∈ movedNames mode gran cpf km mt cs', x ≠ nm := by
        intro x hx hEq
        exact hnmcs' (hEq ▸ movedNames_sub mode gran cpf km mt cs' x hx)
      refine ⟨?_, ?_, ?_, ihnf, ihnd⟩
      · intro p
        rw [ihf p]
        constructor
        · rintro (⟨hp, hall⟩ | ⟨x, hx, rfl⟩)
          · rw [hfiff] at hp
            rcases hp with rfl | ⟨hp, hne1, hne2⟩
            · exact Or.inr ⟨nm, List.mem_cons_self _ _, by rw [hdF]⟩
            · refine Or.inl ⟨hp, ?_⟩
              intro x hx
              rcases List.mem_cons.mp hx with rfl | hx
              · exact hne1
              · exact hall x hx
          · exact Or.inr ⟨x, List.mem_cons_of_mem _ hx,
              rfl⟩
        · rintro (⟨hp, hall⟩ | ⟨x, hx, rfl⟩)
          · refine Or.inl ⟨?_, fun x hx => hall x (List.mem_cons_of_mem _ hx)⟩
            rw [hfiff]
            by_cases hpeq : p = F ++ [nm]
            · exact Or.inl hpeq
            · exact Or.inr ⟨hp, hall nm (List.mem_cons_self _ _), hpeq⟩
          · rcases List.mem_cons.mp hx with hx0 | hx
            · rw [hx0, hdF]
              refine Or.inl ⟨?_, ?_⟩
              · rw [hfiff]
                exact Or.inl rfl
              · intro y hy hEq
                obtain ⟨hF0, hyeq⟩ := append_singleton_inj
                  (by simpa using hEq : F ++ [nm] = [] ++ [y])
                exact hnotmem y hy hyeq.symm
            · exact Or.inr ⟨x, hx, rfl⟩
      · intro d
        rw [ihd d]
        constructor
        · rintro (hd | ⟨x, hx, hne, hlead⟩)
          · rw [hdiff] at hd
            rcases hd with hd | ⟨i, hi, rfl⟩
            · exact Or.inl hd
            · refine Or.inr ⟨nm, List.mem_cons_self _ _, ?_, ?_⟩
              · intro hnil
                have : (F.take (i + 1)).length = 0 := by rw [hnil]; rfl
                rw [List.length_take] at this
                omega
              · rw [hdF]
                exact leadsTo_take F (i + 1)
          · exact Or.inr ⟨x, List.mem_cons_of_mem _ hx, hne, hlead⟩
        · rintro (hd | ⟨x, hx, hne, hlead⟩)
          · rw [hdiff]
            exact Or.inl (Or.inl hd)
          · rcases List.mem_cons.mp hx with hx0 | hx
            · rw [hx0, hdF] at hlead
              rw [hdiff]
              have h1 : d.length ≤ F.length := leadsTo_length hlead
              have h2 : 0 < d.length := List.length_pos.mpr hne
              refine Or.inl (Or.inr ⟨d.length - 1, by omega, ?_⟩)
              have h4 : d.length - 1 + 1 = d.length := by omega
              rw [h4]
              exact leadsTo_eq_take hlead
            · exact Or.inr ⟨x, hx, hne, hlead⟩
      · rw [ihb, hbatch]
        simp [hdF]

theorem candFiles_fresh (names : List Str) :
    candFiles (freshState names) = (names.filter candName).map (fun n => ([n] : FPath)) := by
  show (names.map (fun n => ([n] : FPath))).filter _ = _
  induction names with
  | nil => rfl
  | cons a t ih =>
    rw [List.map_cons, List.filter_cons, List.filter_cons]
    have hc : decide (([a] : FPath).length = 1 ∧ nameOf [a] ≠ histFileName ∧
        nameOf [a] ≠ configFileName) = candName a := by
      unfold candName
      exact decide_eq_decide.mpr (by simp [nameOf])
    rw [hc]
    cases hca : candName a
    · rw [if_neg (by decide), if_neg (by decide)]
      exact ih
    · rw [if_pos rfl, if_pos rfl, List.map_cons, ih]

theorem orgFold_fresh (names : List Str) (mode gran : Str) (cpf : Bool)
    (km : List (Str × Str)) (mt : Str → DT) :
    orgFold (freshState names) mode gran cpf km mt =
      orgRun mode gran cpf km mt ((names.filter candName).length)
        (names.filter candName) 0 (freshState names).fs [] [] := by
  unfold orgFold orgRun
  rw [candFiles_fresh, List.length_map]
  rfl

theorem restoreStep_ok (total k : Nat) (fs : FS) (n0 : Nat) (fl : List FPath)
    (pr : List ℚ) (nm : Str) (F : FPath)
    (hsrc : F ++ [nm] ∈ fs.files)
    (hnd : ([nm] : FPath) ∉ fs.dirs) :
    restoreStep noFault total (fs, n0, fl, pr) (k, (([nm] : FPath), F ++ [nm])) =
      ({ fs with files :=
           ([nm] : FPath) :: fs.files.filter (fun p => p ≠ F ++ [nm] ∧ p ≠ [nm]) },
       n0 + 1, (if F ∈ fl then fl else fl ++ [F]), pr ++ [pct (k + 1) total]) := by
  unfold restoreStep noFault
  dsimp only
  unfold shutilMove
  rw [if_neg hnd]
  unfold renameMove
  rw [if_pos hsrc, if_neg hnd]
  dsimp only
  unfold parentOf
  rw [List.dropLast_concat]
  rw [if_neg (by decide : ¬ (false = true))]

theorem concat_eq_singleton {F : FPath} {a b : Str} (h : F ++ [a] = [b]) :
    F = [] ∧ a = b := by
  cases F with
  | nil => exact ⟨rfl, by simpa using h⟩
  | cons x t =>
    have := congrArg List.length h
    simp at this

theorem undoRun_cons (mode gran : Str) (cpf : Bool) (km : List (Str × Str))
    (mt : Str → DT) (total : Nat) (nm : Str) (P : List Str) (k : Nat) (fs : FS)
    (n0 : Nat) (fl : List FPath) (pr : List ℚ) :
    undoRun mode gran cpf km mt total (nm :: P) k fs n0 fl pr =
      undoRun mode gran cpf km mt total P (k + 1)
        (restoreStep noFault total (fs, n0, fl, pr)
          (k, (([nm] : FPath), destF mode gran cpf km mt nm ++ [nm]))).1
        (restoreStep noFault total (fs, n0, fl, pr)
          (k, (([nm] : FPath), destF mode gran cpf km mt nm ++ [nm]))).2.1
        (restoreStep noFault total (fs, n0, fl, pr)
          (k, (([nm] : FPath), destF mode gran cpf km mt nm ++ [nm]))).2.2.1
        (restoreStep noFault total (fs, n0, fl, pr)
          (k, (([nm] : FPath), destF mode gran cpf km mt nm ++ [nm]))).2.2.2 := rfl

theorem undoRun_inv (mode gran : Str) (cpf : Bool) (km : List (Str × Str))
    (mt : Str → DT) (total : Nat) :
    ∀ (P : List Str) (k : Nat) (fs : FS) (n0 : Nat) (fl : List FPath) (pr : List ℚ),
    P.Nodup →
    (∀ nm ∈ P, destF mode gran cpf km mt nm ++ [nm] ∈ fs.files) →
    (∀ nm ∈ P, ([nm] : FPath) ∉ fs.files) →
    (∀ nm ∈ P, ([nm] : FPath) ∉ fs.dirs) →
    fs.files.Nodup → fl.Nodup →
    ((∀ p, p ∈ (undoRun mode gran cpf km mt total P k fs n0 fl pr).1.files ↔
        ((∃ nm ∈ P, p = ([nm] : FPath)) ∨
         (p ∈ fs.files ∧ ∀ nm ∈ P, p ≠ destF mode gran cpf km mt nm ++ [nm]))) ∧
     (undoRun mode gran cpf km mt total P k fs n0 fl pr).1.dirs = fs.dirs ∧
     (undoRun mode gran cpf km mt total P k fs n0 fl pr).2.1 = n0 + P.length ∧
     (∀ f, f ∈ (undoRun mode gran cpf km mt total P k fs n0 fl pr).2.2.1 ↔
        (f ∈ fl ∨ ∃ nm ∈ P, f = destF mode gran cpf km mt nm)) ∧
     (undoRun mode gran cpf km mt total P k fs n0 fl pr).1.files.Nodup ∧
     (undoRun mode gran cpf km mt total P k fs n0 fl pr).2.2.1.Nodup) := by
  intro P
  induction P with
  | nil =>
    intro k fs n0 fl pr _ _ _ _ hfsnd hflnd
    refine ⟨?_, rfl, by simp [undoRun], ?_, hfsnd, hflnd⟩
    · intro p
      simp [undoRun]
    · intro f
      simp [undoRun]
  | cons nm P ih =>
    intro k fs n0 fl pr hnd hPin hPnotyet hPdirs hfsnd hflnd
    have hnmP : nm ∉ P := (List.nodup_cons.mp hnd).1
    have hPnd : P.Nodup := (List.nodup_cons.mp hnd).2
    have hDne : ∀ x ∈ nm :: P, destF mode gran cpf km mt x ≠ [] := by
      intro x hx h0
      exact hPnotyet x hx (by simpa [h0] using hPin x hx)
    have hsingle : ∀ x ∈ nm :: P, ∀ y : Str,
        ([y] : FPath) ≠ destF mode gran cpf km mt x ++ [x] := by
      intro x hx y hEq
      exact hDne x hx (concat_eq_singleton hEq.symm).1
    have hro := restoreStep_ok total k fs n0 fl pr nm (destF mode gran cpf km mt nm)
      (hPin nm (List.mem_cons_self nm P)) (hPdirs nm (List.mem_cons_self nm P))
    rw [undoRun_cons, hro]
    dsimp only
    have hPin' : ∀ x ∈ P, destF mode gran cpf km mt x ++ [x] ∈
        (([nm] : FPath) :: fs.files.filter
          (fun p => p ≠ destF mode gran cpf km mt nm ++ [nm] ∧ p ≠ [nm])) := by
      intro x hx
      refine List.mem_cons_of_mem _ (List.mem_filter.mpr
        ⟨hPin x (List.mem_cons_of_mem nm hx), decide_eq_true ⟨?_, ?_⟩⟩)
      · intro hEq
        exact hnmP ((append_singleton_inj hEq).2 ▸ hx)
      · exact fun hEq => hsingle x (List.mem_cons_of_mem nm hx) nm hEq.symm
    have hPnotyet' : ∀ x ∈ P, ([x] : FPath) ∉
        (([nm] : FPath) :: fs.files.filter
          (fun p => p ≠ destF mode gran cpf km mt nm ++ [nm] ∧ p ≠ [nm])) := by
      intro x hx hmem
      rcases List.mem_cons.mp hmem with hEq | hmem2
      · have hxe : x = nm := by simpa using hEq
        exact hnmP (hxe ▸ hx)
      · exact hPnotyet x (List.mem_cons_of_mem nm hx) (List.mem_of_mem_filter hmem2)
    have hfsnd' : (([nm] : FPath) :: fs.files.filter
        (fun p => p ≠ destF mode gran cpf km mt nm ++ [nm] ∧ p ≠ [nm])).Nodup := by
      refine List.Nodup.cons ?_ (hfsnd.filter _)
      intro hmem
      exact hPnotyet nm (List.mem_cons_self nm P) (List.mem_of_mem_filter hmem)
    have hflnd' : (if destF mode gran cpf km mt nm ∈ fl then fl
        else fl ++ [destF mode gran cpf km mt nm]).Nodup := by
      split
      · exact hflnd
      · rename_i hF
        rw [List.nodup_append]
        exact ⟨hflnd, List.nodup_singleton _, by
          intro a ha hb
          rw [List.mem_singleton] at hb
          exact hF (hb ▸ ha)⟩
    obtain ⟨ihf, ihd, ihn, ihfl, ihnd1, ihnd2⟩ :=
      ih (k + 1)
        ⟨([nm] : FPath) :: fs.files.filter
          (fun p => p ≠ destF mode gran cpf km mt nm ++ [nm] ∧ p ≠ [nm]), fs.dirs⟩
        (n0 + 1)
        (if destF mode gran cpf km mt nm ∈ fl then fl
         else fl ++ [destF mode gran cpf km mt nm])
        (pr ++ [pct (k + 1) total])
        hPnd hPin' hPnotyet' (fun x hx => hPdirs x (List.mem_cons_of_mem nm hx))
        hfsnd' hflnd'
    refine ⟨?_, by rw [ihd], by rw [ihn]; simp; omega, ?_, ihnd1, ihnd2⟩
    · intro p
      rw [ihf p]
      constructor
      · rintro (⟨x, hx, rfl⟩ | ⟨hmem, hall⟩)
        · exact Or.inl ⟨x, List.mem_cons_of_mem nm hx, rfl⟩
        · rcases List.mem_cons.mp hmem with hpe | hf
          · exact Or.inl ⟨nm, List.mem_cons_self nm P, hpe⟩
          · obtain ⟨hmem2, hpred⟩ := List.mem_filter.mp hf
            obtain ⟨hne1, hne2⟩ := of_decide_eq_true hpred
            refine Or.inr ⟨hmem2, ?_⟩
            intro x hx
            rcases List.mem_cons.mp hx with hxe | hxP
            · exact hxe ▸ hne1
            · exact hall x hxP
      · rintro (⟨x, hx, rfl⟩ | ⟨hmem, hall⟩)
        · rcases List.mem_cons.mp hx with hxe | hxP
          · refine Or.inr ⟨hxe ▸ List.mem_cons_self _ _, ?_⟩
            exact fun y hy => hsingle y (List.mem_cons_of_mem nm hy) x
          · exact Or.inl ⟨x, hxP, rfl⟩
        · have hpnm : p ≠ ([nm] : FPath) := by
            intro hEq
            exact hPnotyet nm (List.mem_cons_self nm P) (hEq ▸ hmem)
          refine Or.inr ⟨List.mem_cons_of_mem _ (List.mem_filter.mpr
            ⟨hmem, decide_eq_true ⟨hall nm (List.mem_cons_self nm P), hpnm⟩⟩), ?_⟩
          exact fun x hx => hall x (List.mem_cons_of_mem nm hx)
    · intro f
      rw [ihfl f]
      constructor
      · rintro (hfl | ⟨x, hx, rfl⟩)
        · split at hfl
          · exact Or.inl hfl
          · rcases List.mem_append.mp hfl with h | h
            · exact Or.inl h
            · exact Or.inr ⟨nm, List.mem_cons_self nm P, List.mem_singleton.mp h⟩
        · exact Or.inr ⟨x, List.mem_cons_of_mem nm hx, rfl⟩
      · rintro (hfl | ⟨x, hx, rfl⟩)
        · refine Or.inl ?_
          split
          · exact hfl
          · exact List.mem_append_left _ hfl
        · rcases List.mem_cons.mp hx with hxe | hxP
          · refine Or.inl ?_
            split
            · rename_i hF
              exact hxe ▸ hF
            · exact hxe ▸ List.mem_append_right _ (List.mem_singleton.mpr rfl)
          · exact Or.inr ⟨x, hxP, rfl⟩

theorem take_succ_dropLast {α : Type} (l : List α) (j : Nat) (h : j + 1 ≤ l.length) :
    (l.take (j + 1)).dropLast = l.take j := by
  rw [List.dropLast_eq_take, List.length_take, min_eq_left h]
  simp [List.take_take]

theorem length_one_dropLast {p : FPath} (h : p.length = 1) : p.dropLast = [] := by
  rw [List.dropLast_eq_take, h]
  simp

theorem leadsTo_take_of_le {d b : FPath} {m : Nat} (h : leadsTo d b)
    (hm : d.length ≤ m) : leadsTo d (b.take m) := by
  have h1 : (b.take m).take d.length = d := by
    rw [List.take_take, min_eq_left hm]
    exact (leadsTo_eq_take h).symm
  rw [← h1]
  exact leadsTo_take _ _

theorem leadsTo_dropLast {d : FPath} (h : d ≠ []) : leadsTo d.dropLast d :=
  ⟨[d.getLast h], List.dropLast_append_getLast h⟩

theorem leadsTo_lt_of_ne {a b : FPath} (h : leadsTo a b) (hne : a ≠ b) :
    a.length < b.length := by
  rcases lt_or_eq_of_le (leadsTo_length h) with hlt | heq
  · exact hlt
  · exfalso
    apply hne
    rw [leadsTo_eq_take h, heq, List.take_length]

theorem walk_seg (R : List FPath) (G0 : FPath)
    (hRlen : ∀ G ∈ R, G0.length ≤ G.length ∧ G ≠ G0) :
    ∀ (j : Nat) (fs : FS), j ≤ G0.length →
    (∀ p ∈ fs.files, p.length = 1) →
    (∀ p ∈ fs.files, ¬ leadsTo p G0) →
    (∀ d, d ∈ fs.dirs ↔ (d = [] ∨ (d ≠ [] ∧ ((∃ G ∈ R, leadsTo d G) ∨
        (leadsTo d G0 ∧ d.length ≤ j))))) →
    fs.dirs.Nodup →
    ((walkFuel (j + 1) fs (G0.take j)).files = fs.files ∧
     (∀ d, d ∈ (walkFuel (j + 1) fs (G0.take j)).dirs ↔
        (d = [] ∨ (d ≠ [] ∧ ∃ G ∈ R, leadsTo d G))) ∧
     (walkFuel (j + 1) fs (G0.take j)).dirs.Nodup) := by
  intro j
  induction j with
  | zero =>
    intro fs _ _ _ hdirs hnd
    have hres : walkFuel 1 fs (G0.take 0) = fs := by
      simp only [walkFuel, List.take_zero]
      rw [if_pos trivial]
    rw [hres]
    refine ⟨rfl, ?_, hnd⟩
    intro d
    rw [hdirs d]
    constructor
    · rintro (rfl | ⟨hne, hG | ⟨_, hlen⟩⟩)
      · exact Or.inl rfl
      · exact Or.inr ⟨hne, hG⟩
      · exact absurd (List.length_eq_zero.mp (Nat.le_zero.mp hlen)) hne
    · rintro (rfl | ⟨hne, hG⟩)
      · exact Or.inl rfl
      · exact Or.inr ⟨hne, Or.inl hG⟩
  | succ j ih =>
    intro fs hj hfile1 hnf hdirs hnd
    have hcur_len : (G0.take (j + 1)).length = j + 1 := by
      rw [List.length_take, min_eq_left hj]
    have hcur_ne : G0.take (j + 1) ≠ [] := by
      intro h0
      rw [h0] at hcur_len
      exact Nat.succ_ne_zero j hcur_len.symm
    have hcur_lead : leadsTo (G0.take (j + 1)) G0 := leadsTo_take _ _
    have hcur_mem : G0.take (j + 1) ∈ fs.dirs := by
      rw [hdirs]
      exact Or.inr ⟨hcur_ne, Or.inr ⟨hcur_lead, le_of_eq hcur_len⟩⟩
    have hcur_nf : G0.take (j + 1) ∉ fs.files :=
      fun hmem => hnf _ hmem hcur_lead
    have hstep : walkFuel (j + 1 + 1) fs (G0.take (j + 1)) =
        (if hasChild fs (G0.take (j + 1)) then fs
         else walkFuel (j + 1) { fs with dirs := fs.dirs.erase (G0.take (j + 1)) }
           (G0.take (j + 1)).dropLast) := by
      simp only [walkFuel]
      rw [if_neg hcur_ne, if_neg (fun h => h (Or.inr hcur_mem)), if_neg hcur_nf]
    by_cases hbreak : ∃ G ∈ R, leadsTo (G0.take (j + 1)) G
    · obtain ⟨G, hG, hlead⟩ := hbreak
      have hGne : G0.take (j + 1) ≠ G := by
        intro hEq
        have h1 : G.length = j + 1 := by rw [← hEq, hcur_len]
        have h2 : G0.length ≤ j + 1 := h1 ▸ (hRlen G hG).1
        have h3 : G0.length = j + 1 := le_antisymm h2 hj
        exact (hRlen G hG).2 (by rw [← hEq, ← h3, List.take_length])
      have hGlen : j + 1 + 1 ≤ G.length := leadsTo_lt_of_ne hlead hGne |>.trans_eq'
        (by rw [hcur_len])
      have hchild : hasChild fs (G0.take (j + 1)) := by
        refine Or.inr ⟨G.take (j + 1 + 1), ?_, ?_, ?_⟩
        · rw [hdirs]
          refine Or.inr ⟨?_, Or.inl ⟨G, hG, leadsTo_take _ _⟩⟩
          intro h0
          have := congrArg List.length h0
          rw [List.length_take, min_eq_left hGlen] at this
          exact Nat.succ_ne_zero _ this
        · intro h0
          have := congrArg List.length h0
          rw [List.length_take, min_eq_left hGlen] at this
          exact Nat.succ_ne_zero _ this
        · rw [take_succ_dropLast G (j + 1) hGlen]
          rw [leadsTo_eq_take hlead, hcur_len]
      rw [hstep, if_pos hchild]
      refine ⟨rfl, ?_, hnd⟩
      intro d
      rw [hdirs d]
      constructor
      · rintro (rfl | ⟨hne, hGx | ⟨hleadd, hlend⟩⟩)
        · exact Or.inl rfl
        · exact Or.inr ⟨hne, hGx⟩
        · refine Or.inr ⟨hne, ⟨G, hG, ?_⟩⟩
          exact leadsTo_trans (leadsTo_take_of_le hleadd hlend) hlead
      · rintro (rfl | ⟨hne, hGx⟩)
        · exact Or.inl rfl
        · exact Or.inr ⟨hne, Or.inl hGx⟩
    · have hnochild : ¬ hasChild fs (G0.take (j + 1)) := by
        rintro (⟨p, hp, hpne, hpd⟩ | ⟨d, hd, hdne, hdd⟩)
        · have h1 := hfile1 p hp
          rw [length_one_dropLast h1] at hpd
          exact hcur_ne hpd.symm
        · have hdlen : d.length = j + 1 + 1 := by
            have := congrArg List.length hdd
            rw [List.length_dropLast, hcur_len] at this
            have hd1 : 1 ≤ d.length := by
              cases d with
              | nil => exact absurd rfl hdne
              | cons a t => simp
            omega
          rcases (hdirs d).mp hd with rfl | ⟨_, hGx | ⟨hleadd, hlend⟩⟩
          · exact hdne rfl
          · obtain ⟨G, hG, hleadG⟩ := hGx
            refine hbreak ⟨G, hG, ?_⟩
            rw [← hdd]
            exact leadsTo_trans (leadsTo_dropLast hdne) hleadG
          · omega
      rw [hstep, if_neg hnochild]
      rw [take_succ_dropLast G0 j hj]
      have herase : ∀ d, d ∈ fs.dirs.erase (G0.take (j + 1)) ↔
          (d = [] ∨ (d ≠ [] ∧ ((∃ G ∈ R, leadsTo d G) ∨
            (leadsTo d G0 ∧ d.length ≤ j)))) := by
        intro d
        rw [hnd.mem_erase_iff]
        constructor
        · rintro ⟨hdne_cur, hmem⟩
          rcases (hdirs d).mp hmem with rfl | ⟨hne, hGx | ⟨hleadd, hlend⟩⟩
          · exact Or.inl rfl
          · exact Or.inr ⟨hne, Or.inl hGx⟩
          · refine Or.inr ⟨hne, Or.inr ⟨hleadd, ?_⟩⟩
            rcases Nat.lt_or_ge d.length (j + 1) with hlt | hge
            · omega
            · exfalso
              apply hdne_cur
              have hdl : d.length = j + 1 := le_antisymm hlend hge
              rw [leadsTo_eq_take hleadd, hdl]
        · rintro (rfl | ⟨hne, hGx | ⟨hleadd, hlend⟩⟩)
          · exact ⟨fun h => hcur_ne h.symm, (hdirs []).mpr (Or.inl rfl)⟩
          · refine ⟨?_, (hdirs d).mpr (Or.inr ⟨hne, Or.inl hGx⟩)⟩
            intro hEq
            obtain ⟨G, hG, hleadG⟩ := hGx
            exact hbreak ⟨G, hG, hEq ▸ hleadG⟩
          · refine ⟨?_, (hdirs d).mpr
              (Or.inr ⟨hne, Or.inr ⟨hleadd, hlend.trans (Nat.le_succ j)⟩⟩)⟩
            intro hEq
            have := congrArg List.length hEq
            rw [hcur_len] at this
            omega
      exact ih { fs with dirs := fs.dirs.erase (G0.take (j + 1)) }
        (Nat.le_of_succ_le hj) hfile1 hnf herase (hnd.erase _)

theorem insLenDesc_perm (a : FPath) (l : List FPath) :
    (insLenDesc a l).Perm (a :: l) := by
  induction l generalizing a with
  | nil => exact List.Perm.refl _
  | cons b bs ih =>
    unfold insLenDesc
    split
    · exact (ih b).cons a
    · exact ((ih a).cons b).trans (List.Perm.swap a b bs)

theorem sortLenDesc_perm (l : List FPath) : (sortLenDesc l).Perm l := by
  induction l with
  | nil => exact List.Perm.refl _
  | cons a as ih =>
    unfold sortLenDesc
    exact (insLenDesc_perm a (sortLenDesc as)).trans (ih.cons a)

theorem cleanup_fold_inv :
    ∀ (W : List FPath) (fs : FS),
    W.Nodup →
    (∀ G ∈ W, ∀ G' ∈ W, G.length = G'.length) →
    (∀ p ∈ fs.files, p.length = 1) →
    (∀ p ∈ fs.files, ∀ G ∈ W, ¬ leadsTo p G) →
    (∀ d, d ∈ fs.dirs ↔ (d = [] ∨ (d ≠ [] ∧ ∃ G ∈ W, leadsTo d G))) →
    fs.dirs.Nodup →
    ((W.foldl walkUp fs).files = fs.files ∧
     (∀ d, d ∈ (W.foldl walkUp fs).dirs ↔ d = []) ∧
     (W.foldl walkUp fs).dirs.Nodup) := by
  intro W
  induction W with
  | nil =>
    intro fs _ _ _ _ hdirs hnd
    refine ⟨rfl, ?_, hnd⟩
    intro d
    show d ∈ fs.dirs ↔ d = []
    rw [hdirs d]
    constructor
    · rintro (rfl | ⟨_, _, h, _⟩)
      · rfl
      · exact absurd h (List.not_mem_nil _)
    · rintro rfl
      exact Or.inl rfl
  | cons G0 R ih =>
    intro fs hnd hlen hfile1 hnofile hdirs hndd
    have hG0R : G0 ∉ R := (List.nodup_cons.mp hnd).1
    have hRnd : R.Nodup := (List.nodup_cons.mp hnd).2
    have hRlen : ∀ G ∈ R, G0.length ≤ G.length ∧ G ≠ G0 := by
      intro G hG
      refine ⟨le_of_eq (hlen G0 (List.mem_cons_self _ _) G
        (List.mem_cons_of_mem _ hG)), ?_⟩
      intro hEq
      exact hG0R (hEq ▸ hG)
    have hdirs' : ∀ d, d ∈ fs.dirs ↔ (d = [] ∨ (d ≠ [] ∧
        ((∃ G ∈ R, leadsTo d G) ∨ (leadsTo d G0 ∧ d.length ≤ G0.length)))) := by
      intro d
      rw [hdirs d]
      constructor
      · rintro (rfl | ⟨hne, G, hG, hlead⟩)
        · exact Or.inl rfl
        · rcases List.mem_cons.mp hG with hGe | hGR
          · exact Or.inr ⟨hne, Or.inr ⟨hGe ▸ hlead, hGe ▸ leadsTo_length hlead⟩⟩
          · exact Or.inr ⟨hne, Or.inl ⟨G, hGR, hlead⟩⟩
      · rintro (rfl | ⟨hne, ⟨G, hG, hlead⟩ | ⟨hlead, _⟩⟩)
        · exact Or.inl rfl
        · exact Or.inr ⟨hne, G, List.mem_cons_of_mem _ hG, hlead⟩
        · exact Or.inr ⟨hne, G0, List.mem_cons_self _ _, hlead⟩
    obtain ⟨hwf, hwd, hwnd⟩ := walk_seg R G0 hRlen G0.length fs (le_refl _) hfile1
      (fun p hp => hnofile p hp G0 (List.mem_cons_self _ _)) hdirs' hndd
    rw [List.take_length] at hwf hwd hwnd
    have hfold : (G0 :: R).foldl walkUp fs = R.foldl walkUp (walkUp fs G0) := rfl
    have hwalk : walkUp fs G0 = walkFuel (G0.length + 1) fs G0 := rfl
    rw [hfold, hwalk]
    obtain ⟨hf2, hd2, hnd2⟩ := ih (walkFuel (G0.length + 1) fs G0) hRnd
      (fun G hG G' hG' => hlen G (List.mem_cons_of_mem _ hG) G'
        (List.mem_cons_of_mem _ hG'))
      (by rw [hwf]; exact hfile1)
      (by rw [hwf]; exact fun p hp G hG => hnofile p hp G (List.mem_cons_of_mem _ hG))
      hwd hwnd
    exact ⟨by rw [hf2, hwf], hd2, hnd2⟩

theorem cleanupFold_ok (W : List FPath) (fs : FS)
    (hnd : W.Nodup) (hlen : ∀ G ∈ W, ∀ G' ∈ W, G.length = G'.length)
    (hfile1 : ∀ p ∈ fs.files, p.length = 1)
    (hnofile : ∀ p ∈ fs.files, ∀ G ∈ W, ¬ leadsTo p G)
    (hdirs : ∀ d, d ∈ fs.dirs ↔ (d = [] ∨ (d ≠ [] ∧ ∃ G ∈ W, leadsTo d G)))
    (hndd : fs.dirs.Nodup) :
    ((cleanupFold fs W).files = fs.files ∧
     (∀ d, d ∈ (cleanupFold fs W).dirs ↔ d = []) ∧
     (cleanupFold fs W).dirs.Nodup) := by
  have hperm := sortLenDesc_perm W
  exact cleanup_fold_inv (sortLenDesc W) fs (hperm.nodup_iff.mpr hnd)
    (fun G hG G' hG' => hlen G (hperm.mem_iff.mp hG) G' (hperm.mem_iff.mp hG'))
    hfile1
    (fun p hp G hG => hnofile p hp G (hperm.mem_iff.mp hG))
    (by
      intro d
      rw [hdirs d]
      constructor
      · rintro (rfl | ⟨hne, G, hG, h⟩)
        · exact Or.inl rfl
        · exact Or.inr ⟨hne, G, hperm.mem_iff.mpr hG, h⟩
      · rintro (rfl | ⟨hne, G, hG, h⟩)
        · exact Or.inl rfl
        · exact Or.inr ⟨hne, G, hperm.mem_iff.mp hG, h⟩)
    hndd

theorem undoFold_eq_undoRun (mode gran : Str) (cpf : Bool) (km : List (Str × Str))
    (mt : Str → DT) (mvd : List Str) (fs : FS) :
    undoFold noFault fs (mvd.map (fun nm => (([nm] : FPath),
        destF mode gran cpf km mt nm ++ [nm]))) =
      undoRun mode gran cpf km mt mvd.length mvd.reverse 0 fs 0 [] [] := by
  unfold undoFold undoRun
  rw [← List.map_reverse, List.length_map]
  rfl

theorem fresh_round_trip (names : List Str) (mode gran : Str) (cpf : Bool)
    (km : List (Str × Str)) (mt : Str → DT)
    (hnd : names.Nodup)
    (hcoll : ∀ n ∈ names, ∀ n' ∈ names, ∀ F,
      computeDest mode gran cpf km mt n' = some F → F.head? ≠ some n)
    (hlen : ∀ n ∈ names, ∀ n' ∈ names, ∀ F F',
      computeDest mode gran cpf km mt n = some F →
      computeDest mode gran cpf km mt n' = some F' → F.length = F'.length)
    (hne : ∀ n ∈ names, ∀ F, computeDest mode gran cpf km mt n = some F → F ≠ []) :
    (∀ p, p ∈ (cleanupFold
        (undoFold noFault (orgFold (freshState names) mode gran cpf km mt).1
          (orgFold (freshState names) mode gran cpf km mt).2.1).1
        (undoFold noFault (orgFold (freshState names) mode gran cpf km mt).1
          (orgFold (freshState names) mode gran cpf km mt).2.1).2.2.1).files ↔
      p ∈ (freshState names).fs.files) ∧
    (∀ d, d ∈ (cleanupFold
        (undoFold noFault (orgFold (freshState names) mode gran cpf km mt).1
          (orgFold (freshState names) mode gran cpf km mt).2.1).1
        (undoFold noFault (orgFold (freshState names) mode gran cpf km mt).1
          (orgFold (freshState names) mode gran cpf km mt).2.1).2.2.1).dirs ↔
      d = []) := by
  rw [orgFold_fresh]
  have hcs_sub : ∀ nm ∈ names.filter candName, nm ∈ names :=
    fun nm h => (List.mem_filter.mp h).1
  have hroots : ∀ nm ∈ names.filter candName, ([nm] : FPath) ∈ (freshState names).fs.files := by
    intro nm h
    exact List.mem_map.mpr ⟨nm, hcs_sub nm h, rfl⟩
  have hrootnames : ∀ x : Str, ([x] : FPath) ∈ (freshState names).fs.files → x ∈ names := by
    intro x hx
    obtain ⟨n, hn, hEq⟩ := List.mem_map.mp hx
    have : n = x := by simpa using hEq
    exact this ▸ hn
  have hlong : ∀ p ∈ (freshState names).fs.files, 2 ≤ p.length →
      ∃ nm' ∈ names, ∃ F', computeDest mode gran cpf km mt nm' = some F' ∧
        p = F' ++ [nm'] := by
    intro p hp h2
    obtain ⟨n, _, hEq⟩ := List.mem_map.mp hp
    rw [← hEq] at h2
    simp at h2
  have hdirsh : ∀ d ∈ (freshState names).fs.dirs, d = [] ∨ ∃ nm' ∈ names, ∃ F',
      computeDest mode gran cpf km mt nm' = some F' ∧ d ≠ [] ∧ leadsTo d F' := by
    intro d hd
    left
    simpa [freshState] using hd
  have hndf : (freshState names).fs.files.Nodup := by
    refine List.Nodup.map ?_ hnd
    intro a b h
    simpa using h
  have hndd : (freshState names).fs.dirs.Nodup := by
    simp [freshState]
  obtain ⟨hf1, hd1, hb1, hnf1, hnd1⟩ := orgRun_inv names mode gran cpf km mt hcoll hlen
    (names.filter candName) 0 (names.filter candName).length (freshState names).fs [] []
    (hnd.filter _) hcs_sub hroots hrootnames hlong hdirsh hndf hndd
  rw [List.nil_append] at hb1
  rw [hb1, undoFold_eq_undoRun]
  have hmvd_names : ∀ nm ∈ movedNames mode gran cpf km mt (names.filter candName),
      nm ∈ names := fun nm h => hcs_sub nm (movedNames_sub _ _ _ _ _ _ _ h)
  have hmvdnd : (movedNames mode gran cpf km mt (names.filter candName)).Nodup :=
    (hnd.filter _).filter _
  have hDne : ∀ nm ∈ movedNames mode gran cpf km mt (names.filter candName),
      destF mode gran cpf km mt nm ≠ [] := fun nm h =>
    hne nm (hmvd_names nm h) _ (movedNames_dest _ _ _ _ _ _ _ h)
  have hPnotyet : ∀ nm ∈ (movedNames mode gran cpf km mt (names.filter candName)).reverse,
      ([nm] : FPath) ∉ (orgRun mode gran cpf km mt (names.filter candName).length
        (names.filter candName) 0 (freshState names).fs [] []).1.files := by
    intro nm h hmem
    have hm := List.mem_reverse.mp h
    rcases (hf1 _).mp hmem with ⟨_, hall⟩ | ⟨x, hx, hEq⟩
    · exact hall nm hm rfl
    · exact hDne x hx (concat_eq_singleton hEq.symm).1
  have hPdirs : ∀ nm ∈ (movedNames mode gran cpf km mt (names.filter candName)).reverse,
      ([nm] : FPath) ∉ (orgRun mode gran cpf km mt (names.filter candName).length
        (names.filter candName) 0 (freshState names).fs [] []).1.dirs := by
    intro nm h hmem
    have hmn : nm ∈ names := hmvd_names nm (List.mem_reverse.mp h)
    rcases (hd1 _).mp hmem with hfr | ⟨x, hx, hne0, hlead⟩
    · simp [freshState] at hfr
    · exact hcoll nm hmn x (hmvd_names x hx) _ (movedNames_dest _ _ _ _ _ _ _ hx)
        (leadsTo_singleton hlead)
  obtain ⟨huf, hud, hun, hufl, hund1, hund2⟩ := undoRun_inv mode gran cpf km mt
    (movedNames mode gran cpf km mt (names.filter candName)).length
    (movedNames mode gran cpf km mt (names.filter candName)).reverse 0
    (orgRun mode gran cpf km mt (names.filter candName).length
      (names.filter candName) 0 (freshState names).fs [] []).1 0 [] []
    (List.nodup_reverse.mpr hmvdnd)
    (fun nm h => (hf1 _).mpr (Or.inr ⟨nm, List.mem_reverse.mp h, rfl⟩))
    hPnotyet hPdirs hnf1 (List.nodup_nil)
  have hWmem : ∀ G, G ∈ (undoRun mode gran cpf km mt
      (movedNames mode gran cpf km mt (names.filter candName)).length
      (movedNames mode gran cpf km mt (names.filter candName)).reverse 0
      (orgRun mode gran cpf km mt (names.filter candName).length
        (names.filter candName) 0 (freshState names).fs [] []).1 0 [] []).2.2.1 ↔
      ∃ nm ∈ movedNames mode gran cpf km mt (names.filter candName),
        G = destF mode gran cpf km mt nm := by
    intro G
    rw [hufl G]
    constructor
    · rintro (h | ⟨nm, hnm, rfl⟩)
      · exact absurd h (List.not_mem_nil _)
      · exact ⟨nm, List.mem_reverse.mp hnm, rfl⟩
    · rintro ⟨nm, hnm, rfl⟩
      exact Or.inr ⟨nm, List.mem_reverse.mpr hnm, rfl⟩
  have hfile1 : ∀ p ∈ (undoRun mode gran cpf km mt
      (movedNames mode gran cpf km mt (names.filter candName)).length
      (movedNames mode gran cpf km mt (names.filter candName)).reverse 0
      (orgRun mode gran cpf km mt (names.filter candName).length
        (names.filter candName) 0 (freshState names).fs [] []).1 0 [] []).1.files,
      ∃ y ∈ names, p = ([y] : FPath) := by
    intro p hp
    rcases (huf p).mp hp with ⟨x, hx, rfl⟩ | ⟨hmem, hall⟩
    · exact ⟨x, hmvd_names x (List.mem_reverse.mp hx), rfl⟩
    · rcases (hf1 p).mp hmem with ⟨hfr, _⟩ | ⟨x, hx, hEq⟩
      · obtain ⟨n, hn, hEq⟩ := List.mem_map.mp hfr
        exact ⟨n, hn, hEq.symm⟩
      · exact absurd hEq (hall x (List.mem_reverse.mpr hx))
  obtain ⟨hcf, hcd, hcnd⟩ := cleanupFold_ok _ _ hund2
    (by
      intro G hG G' hG'
      obtain ⟨nm, hnm, rfl⟩ := (hWmem G).mp hG
      obtain ⟨nm', hnm', rfl⟩ := (hWmem G').mp hG'
      exact hlen nm (hmvd_names nm hnm) nm' (hmvd_names nm' hnm') _ _
        (movedNames_dest _ _ _ _ _ _ _ hnm) (movedNames_dest _ _ _ _ _ _ _ hnm'))
    (by
      intro p hp
      obtain ⟨y, _, rfl⟩ := hfile1 p hp
      rfl)
    (by
      intro p hp G hG hlead
      obtain ⟨y, hy, rfl⟩ := hfile1 p hp
      obtain ⟨nm, hnm, rfl⟩ := (hWmem G).mp hG
      exact hcoll y hy nm (hmvd_names nm hnm) _ (movedNames_dest _ _ _ _ _ _ _ hnm)
        (leadsTo_singleton hlead))
    (by
      intro d
      rw [hud, hd1 d]
      constructor
      · rintro (hfr | ⟨x, hx, hne0, hlead⟩)
        · left
          simpa [freshState] using hfr
        · exact Or.inr ⟨hne0, destF mode gran cpf km mt x,
            (hWmem _).mpr ⟨x, hx, rfl⟩, hlead⟩
      · rintro (rfl | ⟨hne0, G, hG, hlead⟩)
        · left
          simp [freshState]
        · obtain ⟨nm, hnm, rfl⟩ := (hWmem G).mp hG
          exact Or.inr ⟨nm, hnm, hne0, hlead⟩)
    (by rw [hud]; exact hnd1)
  refine ⟨?_, hcd⟩
  intro p
  rw [hcf, huf p]
  constructor
  · rintro (⟨x, hx, rfl⟩ | ⟨hmem, hall⟩)
    · exact List.mem_map.mpr ⟨x, hmvd_names x (List.mem_reverse.mp hx), rfl⟩
    · rcases (hf1 p).mp hmem with ⟨hfr, _⟩ | ⟨x, hx, hEq⟩
      · exact hfr
      · exact absurd hEq (hall x (List.mem_reverse.mpr hx))
  · intro hp
    obtain ⟨n, hn, hEq⟩ := List.mem_map.mp hp
    subst hEq
    by_cases hmem : n ∈ movedNames mode gran cpf km mt (names.filter candName)
    · exact Or.inl ⟨n, List.mem_reverse.mpr hmem, rfl⟩
    · refine Or.inr ⟨(hf1 _).mpr (Or.inl ⟨List.mem_map.mpr ⟨n, hn, rfl⟩, ?_⟩), ?_⟩
      · intro x hx hEq2
        have : n = x := by simpa using hEq2
        exact hmem (this ▸ hx)
      · intro nm hnm hEq2
        exact hDne nm (List.mem_reverse.mp hnm) (concat_eq_singleton hEq2.symm).1

theorem fresh_org_facts (names : List Str) (mode gran : Str) (cpf : Bool)
    (km : List (Str × Str)) (mt : Str → DT)
    (hnd : names.Nodup)
    (hcoll : ∀ n ∈ names, ∀ n' ∈ names, ∀ F,
      computeDest mode gran cpf km mt n' = some F → F.head? ≠ some n)
    (hlen : ∀ n ∈ names, ∀ n' ∈ names, ∀ F F',
      computeDest mode gran cpf km mt n = some F →
      computeDest mode gran cpf km mt n' = some F' → F.length = F'.length) :
    (∀ p, p ∈ (orgFold (freshState names) mode gran cpf km mt).1.files ↔
      ((p ∈ (freshState names).fs.files ∧
        ∀ nm ∈ movedNames mode gran cpf km mt (names.filter candName),
          p ≠ ([nm] : FPath)) ∨
       (∃ nm ∈ movedNames mode gran cpf km mt (names.filter candName),
         p = destF mode gran cpf km mt nm ++ [nm]))) ∧
    (∀ d, d ∈ (orgFold (freshState names) mode gran cpf km mt).1.dirs ↔
      (d ∈ (freshState names).fs.dirs ∨
       ∃ nm ∈ movedNames mode gran cpf km mt (names.filter candName),
         d ≠ [] ∧ leadsTo d (destF mode gran cpf km mt nm))) ∧
    (orgFold (freshState names) mode gran cpf km mt).2.1 =
      (movedNames mode gran cpf km mt (names.filter candName)).map
        (fun nm => (([nm] : FPath), destF mode gran cpf km mt nm ++ [nm])) := by
  rw [orgFold_fresh]
  have hcs_sub : ∀ nm ∈ names.filter candName, nm ∈ names :=
    fun nm h => (List.mem_filter.mp h).1
  have hroots : ∀ nm ∈ names.filter candName,
      ([nm] : FPath) ∈ (freshState names).fs.files := by
    intro nm h
    exact List.mem_map.mpr ⟨nm, hcs_sub nm h, rfl⟩
  have hrootnames : ∀ x : Str, ([x] : FPath) ∈ (freshState names).fs.files →
      x ∈ names := by
    intro x hx
    obtain ⟨n, hn, hEq⟩ := List.mem_map.mp hx
    have : n = x := by simpa using hEq
    exact this ▸ hn
  have hlong : ∀ p ∈ (freshState names).fs.files, 2 ≤ p.length →
      ∃ nm' ∈ names, ∃ F', computeDest mode gran cpf km mt nm' = some F' ∧
        p = F' ++ [nm'] := by
    intro p hp h2
    obtain ⟨n, _, hEq⟩ := List.mem_map.mp hp
    rw [← hEq] at h2
    simp at h2
  have hdirsh : ∀ d ∈ (freshState names).fs.dirs, d = [] ∨ ∃ nm' ∈ names, ∃ F',
      computeDest mode gran cpf km mt nm' = some F' ∧ d ≠ [] ∧ leadsTo d F' := by
    intro d hd
    left
    simpa [freshState] using hd
  have hndf : (freshState names).fs.files.Nodup := by
    refine List.Nodup.map ?_ hnd
    intro a b h
    simpa using h
  have hndd : (freshState names).fs.dirs.Nodup := by
    simp [freshState]
  obtain ⟨hf1, hd1, hb1, _, _⟩ := orgRun_inv names mode gran cpf km mt hcoll hlen
    (names.filter candName) 0 (names.filter candName).length (freshState names).fs [] []
    (hnd.filter _) hcs_sub hroots hrootnames hlong hdirsh hndf hndd
  rw [List.nil_append] at hb1
  exact ⟨hf1, hd1, hb1⟩

/-- C1 amended: starting from a fresh managed directory (root-level files
with pairwise distinct names, no extra folders, no persisted history),
organize followed immediately by undo restores the exact pre-organize
state, provided the run is collision-free in the sense that no file is
named like the head segment of any computed destination folder, all
computed destination folders have the same depth and are non-empty (all
automatic for the built-in classifiers on typical inputs, e.g. By
Extension): the file set is restored (same names, each directly under the
root), every folder that did not exist before the organize is removed
again, and the history file is back to its pre-organize absent state.
Without these provisos the claim fails, see the counterexample. -/
theorem claim_C1_amended (names : List Str) (mode gran kw fr : Str) (cpf : Bool)
    (mt : Str → DT) (s' : OrgState) (n : Nat) (prog : List ℚ)
    (hnd : names.Nodup)
    (hcoll : ∀ n1 ∈ names, ∀ n2 ∈ names, ∀ F,
      computeDest mode gran cpf (theKM mode kw fr) mt n2 = some F → F.head? ≠ some n1)
    (hlen : ∀ n1 ∈ names, ∀ n2 ∈ names, ∀ F F',
      computeDest mode gran cpf (theKM mode kw fr) mt n1 = some F →
      computeDest mode gran cpf (theKM mode kw fr) mt n2 = some F' →
      F.length = F'.length)
    (hne : ∀ n1 ∈ names, ∀ F,
      computeDest mode gran cpf (theKM mode kw fr) mt n1 = some F → F ≠ [])
    (horg : organize_files (freshState names) mode gran kw fr cpf mt =
      .ok (s', n, prog)) :
    (∀ p, p ∈ (undo_organization noFault s').1.fs.files ↔
      p ∈ (freshState names).fs.files) ∧
    (∀ d, d ∈ (undo_organization noFault s').1.fs.dirs ↔
      d ∈ (freshState names).fs.dirs) ∧
    (undo_organization noFault s').1.hist = (freshState names).hist := by
  rcases organize_files_ok_shape (freshState names) mode gran kw fr cpf mt s' n prog horg
    with ⟨_, rfl, _, _⟩ | ⟨_, hsfs, _, _, hshist⟩
  · rw [undo_empty_stack noFault (freshState names) rfl]
    exact ⟨fun p => Iff.rfl, fun d => Iff.rfl, rfl⟩
  · by_cases hb : (orgFold (freshState names) mode gran cpf (theKM mode kw fr) mt).2.1.isEmpty
    · have hhist : s'.hist = none := by
        rw [hshist, if_pos hb]
        rfl
      rw [undo_empty_stack noFault s' (by rw [hhist]; rfl)]
      obtain ⟨hf1, hd1, hb1⟩ := fresh_org_facts names mode gran cpf (theKM mode kw fr)
        mt hnd hcoll hlen
      have hmvd : movedNames mode gran cpf (theKM mode kw fr) mt
          (names.filter candName) = [] := by
        refine List.map_eq_nil_iff.mp (?_ :
          (movedNames mode gran cpf (theKM mode kw fr) mt (names.filter candName)).map
            (fun nm => (([nm] : FPath),
              destF mode gran cpf (theKM mode kw fr) mt nm ++ [nm])) = [])
        rw [← hb1]
        exact List.isEmpty_iff.mp hb
      refine ⟨?_, ?_, by rw [hhist]; rfl⟩
      · intro p
        rw [hsfs, hf1 p, hmvd]
        simp
      · intro d
        rw [hsfs, hd1 d, hmvd]
        simp
    · have hbne : (orgFold (freshState names) mode gran cpf
          (theKM mode kw fr) mt).2.1 ≠ [] := by
        intro h0
        rw [h0] at hb
        exact hb rfl
      have hstack : loadStackSt s'.hist =
          [(orgFold (freshState names) mode gran cpf (theKM mode kw fr) mt).2.1] := by
        rw [hshist, if_neg hb]
        rfl
      have hlast : (loadStackSt s'.hist).getLast? =
          some (orgFold (freshState names) mode gran cpf (theKM mode kw fr) mt).2.1 := by
        rw [hstack]
        rfl
      rw [undo_main noFault s' _ hlast hbne]
      obtain ⟨hrf, hrd⟩ := fresh_round_trip names mode gran cpf (theKM mode kw fr) mt
        hnd hcoll hlen hne
      rw [hsfs]
      refine ⟨hrf, ?_, ?_⟩
      · intro d
        rw [hrd d]
        simp [freshState]
      · rw [hstack]
        rfl

/-- Witness for C1 amended: two ordinary files a.txt and b.jpg organized
By Extension on a fresh directory and then undone; the hypotheses hold
concretely and the round trip restores the original state exactly. -/
theorem claim_C1_witness :
    organize_files (freshState [strL "a.txt", strL "b.jpg"]) (strL "By Extension")
        (strL "Year") [] [] false (fun _ => ⟨2024, 1, 1, 0, 0, 0⟩) =
      .ok (⟨⟨[[strL "jpg", strL "b.jpg"], [strL "txt", strL "a.txt"]],
             [[], [strL "txt"], [strL "jpg"]]⟩,
            some [[([strL "a.txt"], [strL "txt", strL "a.txt"]),
                   ([strL "b.jpg"], [strL "jpg", strL "b.jpg"])]]⟩, 2,
           [pct 1 2, pct 2 2]) ∧
    ((∀ p, p ∈ (undo_organization noFault
          ⟨⟨[[strL "jpg", strL "b.jpg"], [strL "txt", strL "a.txt"]],
            [[], [strL "txt"], [strL "jpg"]]⟩,
           some [[([strL "a.txt"], [strL "txt", strL "a.txt"]),
                  ([strL "b.jpg"], [strL "jpg", strL "b.jpg"])]]⟩).1.fs.files ↔
        p ∈ (freshState [strL "a.txt", strL "b.jpg"]).fs.files) ∧
     (∀ d, d ∈ (undo_organization noFault
          ⟨⟨[[strL "jpg", strL "b.jpg"], [strL "txt", strL "a.txt"]],
            [[], [strL "txt"], [strL "jpg"]]⟩,
           some [[([strL "a.txt"], [strL "txt", strL "a.txt"]),
                  ([strL "b.jpg"], [strL "jpg", strL "b.jpg"])]]⟩).1.fs.dirs ↔
        d ∈ (freshState [strL "a.txt", strL "b.jpg"]).fs.dirs) ∧
     (undo_organization noFault
          ⟨⟨[[strL "jpg", strL "b.jpg"], [strL "txt", strL "a.txt"]],
            [[], [strL "txt"], [strL "jpg"]]⟩,
           some [[([strL "a.txt"], [strL "txt", strL "a.txt"]),
                  ([strL "b.jpg"], [strL "jpg", strL "b.jpg"])]]⟩).1.hist =
        (freshState [strL "a.txt", strL "b.jpg"]).hist) := by
  have horg : organize_files (freshState [strL "a.txt", strL "b.jpg"])
      (strL "By Extension") (strL "Year") [] [] false
      (fun _ => ⟨2024, 1, 1, 0, 0, 0⟩) =
      .ok (⟨⟨[[strL "jpg", strL "b.jpg"], [strL "txt", strL "a.txt"]],
             [[], [strL "txt"], [strL "jpg"]]⟩,
            some [[([strL "a.txt"], [strL "txt", strL "a.txt"]),
                   ([strL "b.jpg"], [strL "jpg", strL "b.jpg"])]]⟩, 2,
           [pct 1 2, pct 2 2]) := rfl
  refine ⟨horg, claim_C1_amended [strL "a.txt", strL "b.jpg"] (strL "By Extension")
    (strL "Year") [] [] false (fun _ => ⟨2024, 1, 1, 0, 0, 0⟩)
    ⟨⟨[[strL "jpg", strL "b.jpg"], [strL "txt", strL "a.txt"]],
      [[], [strL "txt"], [strL "jpg"]]⟩,
     some [[([strL "a.txt"], [strL "txt", strL "a.txt"]),
            ([strL "b.jpg"], [strL "jpg", strL "b.jpg"])]]⟩
    2 [pct 1 2, pct 2 2] (by decide) ?_ ?_ ?_ horg⟩
  · intro n1 h1 n2 h2 F hF
    have hF2 : some ([extFolderName n2] : FPath) = some F := hF
    obtain rfl := Option.some.inj hF2
    intro hh
    have hext : extFolderName n2 = n1 := by simpa using hh
    fin_cases h1 <;> fin_cases h2 <;> exact absurd hext (by decide)
  · intro n1 h1 n2 h2 F F' hF hF'
    have e1 : some ([extFolderName n1] : FPath) = some F := hF
    have e2 : some ([extFolderName n2] : FPath) = some F' := hF'
    obtain rfl := Option.some.inj e1
    obtain rfl := Option.some.inj e2
    rfl
  · intro n1 h1 F hF
    have e1 : some ([extFolderName n1] : FPath) = some F := hF
    obtain rfl := Option.some.inj e1
    simp
